import Mathlib

/-!
Verification development for the RAG-ai3-chunk-embed service.

Shallow embedding of the persistent RAG indexing/search service:
the job queue (src/job_queue.py), the parallel embedder
(src/NU_parallel_embedder.py), the document/chunk store and upsert
coordinator (src/app_v1.py, src/models.py), the FAISS index manager
(src/index_manager.py), the chunk-strategy registry
(src/chunking_strategies/registry.py) and the built-in strategies
(src/chunking_strategies/strategies/*.py).

Database sessions are modelled with snapshot semantics: a session reads
the committed state as of its start plus its own writes; `commit` applies
a session's writes atomically to the committed state; `rollback` discards
them.  Pure collaborators that the spec declares external (the embedding
model, the content hash over normalized text, the LLM enricher) are
parameters of the model.
-/

namespace RagAi3

/-! ## Job queue (src/job_queue.py) -/

/-- Job status strings used by the queue: pending, running, completed, failed. -/
inductive JobStatus
  | pending
  | running
  | completed
  | failed
  deriving DecidableEq, Repr

/-- A row of the `jobs` table (src/models.py, class Job).  Timestamps are
modelled as naturals. -/
structure Job where
  job_id : String
  type : String
  payload : String
  status : JobStatus
  progress : Nat
  error : Option String
  created_at : Nat
  updated_at : Nat
  started_at : Option Nat
  completed_at : Option Nat
  deriving DecidableEq, Repr

/-- The view of a claimed job returned by `get_next_pending_job`. -/
structure JobView where
  job_id : String
  type : String
  payload : String
  deriving DecidableEq, Repr

/-- First element of the list attaining the minimal `created_at`: the model of
`ORDER BY created_at ... FIRST` with a stable order among equal keys. -/
def oldestFirst : List Job → Option Job
  | [] => none
  | j :: js =>
    match oldestFirst js with
    | none => some j
    | some k => if j.created_at ≤ k.created_at then some j else some k

/-- `JobQueue.get_next_pending_job` (src/job_queue.py lines 156-185): select the
pending job with the oldest `created_at`, mark it running, set `started_at` and
`updated_at`, commit; return `none` when no pending job exists.  The whole body
runs in one session, modelled as one atomic state transition. -/
def get_next_pending_job (jobs : List Job) (now : Nat) :
    Option JobView × List Job :=
  match oldestFirst (jobs.filter (fun j => j.status = JobStatus.pending)) with
  | none => (none, jobs)
  | some j =>
    (some { job_id := j.job_id, type := j.type, payload := j.payload },
     jobs.map (fun x =>
       if x.job_id = j.job_id then
         { x with status := JobStatus.running, started_at := some now,
                  updated_at := now }
       else x))

theorem oldestFirst_none {js : List Job} : oldestFirst js = none ↔ js = [] := by
  cases js with
  | nil => simp [oldestFirst]
  | cons a l =>
    simp only [oldestFirst]
    cases hl : oldestFirst l with
    | none => simp
    | some k => by_cases h : a.created_at ≤ k.created_at <;> simp [h]

theorem oldestFirst_mem {js : List Job} {j : Job} (h : oldestFirst js = some j) :
    j ∈ js := by
  induction js generalizing j with
  | nil => simp [oldestFirst] at h
  | cons a l ih =>
    simp only [oldestFirst] at h
    cases hl : oldestFirst l with
    | none => rw [hl] at h; simp at h; simp [h]
    | some k =>
      rw [hl] at h
      by_cases hle : a.created_at ≤ k.created_at
      · simp [hle] at h; simp [h]
      · simp [hle] at h; right; exact h ▸ ih hl

theorem oldestFirst_min {js : List Job} {j : Job} (h : oldestFirst js = some j) :
    ∀ k ∈ js, j.created_at ≤ k.created_at := by
  induction js generalizing j with
  | nil => simp [oldestFirst] at h
  | cons a l ih =>
    simp only [oldestFirst] at h
    intro k hk
    cases hl : oldestFirst l with
    | none =>
      rw [hl] at h
      simp at h
      have hnil : l = [] := oldestFirst_none.mp hl
      subst hnil
      simp at hk
      simp [h, hk]
    | some m =>
      rw [hl] at h
      by_cases hle : a.created_at ≤ m.created_at
      · simp [hle] at h
        rcases List.mem_cons.mp hk with hk | hk
        · simp [h, hk]
        · exact h ▸ le_trans hle (ih hl k hk)
      · simp [hle] at h
        rcases List.mem_cons.mp hk with hk | hk
        · exact h ▸ (hk ▸ le_of_lt (lt_of_not_le hle))
        · exact h ▸ ih hl k hk

theorem oldestFirst_pending {js : List Job} {j : Job}
    (h : oldestFirst (js.filter (fun x => x.status = JobStatus.pending)) = some j) :
    j ∈ js ∧ j.status = JobStatus.pending := by
  have hm := oldestFirst_mem h
  have := List.of_mem_filter hm
  refine ⟨List.mem_of_mem_filter hm, by simpa using this⟩

/-- C7.  Job claiming is an atomic FIFO step: `get_next_pending_job` returns
`none` exactly when no pending job exists (and then leaves the queue
unchanged); otherwise it selects a pending job whose `created_at` is minimal
among all pending jobs, and in the same atomic transition sets that job's
status to `running` and its `started_at` to the claim time, leaving every
other job unchanged. -/
theorem jobqueue_claim_atomic_fifo (jobs : List Job) (now : Nat) :
    ((get_next_pending_job jobs now).1 = none ↔
        ∀ j ∈ jobs, j.status ≠ JobStatus.pending) ∧
    ((get_next_pending_job jobs now).1 = none →
        (get_next_pending_job jobs now).2 = jobs) ∧
    (∀ v, (get_next_pending_job jobs now).1 = some v →
      ∃ j ∈ jobs, j.status = JobStatus.pending ∧
        (∀ k ∈ jobs, k.status = JobStatus.pending →
          j.created_at ≤ k.created_at) ∧
        v = { job_id := j.job_id, type := j.type, payload := j.payload } ∧
        (get_next_pending_job jobs now).2 = jobs.map (fun x =>
          if x.job_id = j.job_id then
            { x with status := JobStatus.running, started_at := some now,
                     updated_at := now }
          else x)) := by
  refine ⟨?_, ?_, ?_⟩
  · unfold get_next_pending_job
    cases h : oldestFirst (jobs.filter (fun x => x.status = JobStatus.pending)) with
    | none =>
      simp only [h]
      have := oldestFirst_none.mp h
      constructor
      · intro _ j hj hp
        have : j ∈ jobs.filter (fun x => x.status = JobStatus.pending) :=
          List.mem_filter.mpr ⟨hj, by simpa using hp⟩
        rw [oldestFirst_none.mp h] at this
        simp at this
      · simp
    | some j =>
      simp only [h]
      constructor
      · intro hc; simp at hc
      · intro hall
        exact absurd (oldestFirst_pending h).2 (hall j (oldestFirst_pending h).1)
  · unfold get_next_pending_job
    cases h : oldestFirst (jobs.filter (fun x => x.status = JobStatus.pending)) with
    | none => intro _; rfl
    | some j => intro hc; simp at hc
  · intro v hv
    unfold get_next_pending_job at hv ⊢
    cases h : oldestFirst (jobs.filter (fun x => x.status = JobStatus.pending)) with
    | none => rw [h] at hv; simp at hv
    | some j =>
      rw [h] at hv
      simp only [Option.some.injEq] at hv
      refine ⟨j, (oldestFirst_pending h).1, (oldestFirst_pending h).2, ?_, hv.symm, rfl⟩
      intro k hk hkp
      exact oldestFirst_min h k (List.mem_filter.mpr ⟨hk, by simpa using hkp⟩)

/-- Example queue used to witness the job-queue claim: two pending jobs (the
older one created at time 3) and one running job. -/
def demoJobs : List Job :=
  [ { job_id := "a", type := "ingest_docs", payload := "p1",
      status := JobStatus.pending, progress := 0, error := none,
      created_at := 5, updated_at := 5, started_at := none, completed_at := none },
    { job_id := "b", type := "rebuild_index", payload := "p2",
      status := JobStatus.pending, progress := 0, error := none,
      created_at := 3, updated_at := 3, started_at := none, completed_at := none },
    { job_id := "c", type := "ingest_docs", payload := "p3",
      status := JobStatus.running, progress := 50, error := none,
      created_at := 1, updated_at := 2, started_at := some 2, completed_at := none } ]

/-- Witness for C7: on `demoJobs` the claimed job is the oldest pending one
(`"b"`, created at 3), and the theorem's conclusions hold there. -/
theorem jobqueue_claim_atomic_fifo_witness :
    ∃ j ∈ demoJobs, j.status = JobStatus.pending ∧
      (∀ k ∈ demoJobs, k.status = JobStatus.pending →
        j.created_at ≤ k.created_at) ∧
      ({ job_id := "b", type := "rebuild_index", payload := "p2" } : JobView) =
        { job_id := j.job_id, type := j.type, payload := j.payload } ∧
      (get_next_pending_job demoJobs 100).2 = demoJobs.map (fun x =>
        if x.job_id = j.job_id then
          { x with status := JobStatus.running, started_at := some 100,
                   updated_at := 100 }
        else x) :=
  (jobqueue_claim_atomic_fifo demoJobs 100).2.2
    { job_id := "b", type := "rebuild_index", payload := "p2" } (by decide)

/-! ## Parallel embedder (src/NU_parallel_embedder.py) -/

/-- Slice size used by `ParallelEmbedder._distribute_texts`:
`(n_texts + n_gpus - 1) // n_gpus`, the ceiling of `n / g` for `g > 0`. -/
def texts_per_gpu (n g : Nat) : Nat := (n + g - 1) / g

/-- `ParallelEmbedder._distribute_texts` (src/NU_parallel_embedder.py lines
262-286): partition `texts` into contiguous slices of `texts_per_gpu` texts,
one slice per GPU in order; trailing GPUs whose slice would start past the end
receive nothing. -/
def distribute_texts (texts : List String) (gpus : List Nat) :
    List (List String × Nat) :=
  gpus.enum.filterMap (fun p =>
    if p.1 * texts_per_gpu texts.length gpus.length < texts.length then
      some ((texts.drop (p.1 * texts_per_gpu texts.length gpus.length)).take
        (texts_per_gpu texts.length gpus.length), p.2)
    else none)

/-- Per-batch results arriving in an arbitrary completion order `order`
(`as_completed` in `ParallelEmbedder.embed`): each arrival records its batch
index together with the embeddings of that batch's texts. -/
def batchArrivals (f : String → List Int) (batches : List (List String))
    (order : List Nat) : List (Nat × List (List Int)) :=
  order.map (fun i => (i, (batches.getD i []).map f))

/-- The final combination step of `ParallelEmbedder.embed` (lines 395-397):
`ordered_results = [results[i] for i in range(len(batches))]` followed by
`np.vstack`, i.e. read the per-batch results back in batch-index order and
concatenate their rows. -/
def combineInIndexOrder (k : Nat) (dict : List (Nat × List (List Int))) :
    List (List Int) :=
  ((List.range k).map (fun i =>
    ((dict.find? (fun p => p.1 = i)).map Prod.snd).getD [])).flatten

/-- The parallel path of `ParallelEmbedder.embed`: distribute texts over GPUs,
embed every batch (modelled by the pure per-text embedder `f`), collect the
results in completion order `order`, and combine them in batch-index order. -/
def parallel_embed (f : String → List Int) (texts : List String)
    (gpus : List Nat) (order : List Nat) : List (List Int) :=
  combineInIndexOrder ((distribute_texts texts gpus).map Prod.fst).length
    (batchArrivals f ((distribute_texts texts gpus).map Prod.fst) order)

theorem slices_flatten (l : List String) (per : Nat) (k : Nat) :
    ((List.range k).filterMap (fun i =>
      if i * per < l.length then some ((l.drop (i * per)).take per)
      else none)).flatten = l.take (k * per) := by
  induction k with
  | zero => simp
  | succ k ih =>
    rw [List.range_succ, List.filterMap_append, List.flatten_append, ih]
    by_cases h : k * per < l.length
    · simp only [List.filterMap_cons, h, if_pos, List.filterMap_nil,
        List.flatten_cons, List.flatten_nil, List.append_nil]
      rw [← List.take_add]
      congr 1
      rw [Nat.succ_mul]
    · simp only [List.filterMap_cons, h, if_neg, not_false_iff,
        List.filterMap_nil, List.flatten_nil, List.append_nil]
      have h1 : l.length ≤ k * per := le_of_not_lt h
      rw [List.take_of_length_le h1,
        List.take_of_length_le (le_trans h1 (Nat.mul_le_mul_right per (Nat.le_succ k)))]

theorem filterMap_slices_map_fst (l : List (Nat × Nat)) (per n : Nat)
    (slice : Nat → List String) :
    (l.filterMap (fun p =>
      if p.1 * per < n then some (slice p.1, p.2) else none)).map Prod.fst =
    (l.map Prod.fst).filterMap (fun i =>
      if i * per < n then some (slice i) else none) := by
  induction l with
  | nil => rfl
  | cons p l ih =>
    by_cases h : p.1 * per < n <;> simp [h, ih]

theorem distribute_texts_map_fst (texts : List String) (gpus : List Nat) :
    (distribute_texts texts gpus).map Prod.fst =
    (List.range gpus.length).filterMap (fun i =>
      if i * texts_per_gpu texts.length gpus.length < texts.length then
        some ((texts.drop (i * texts_per_gpu texts.length gpus.length)).take
          (texts_per_gpu texts.length gpus.length))
      else none) := by
  unfold distribute_texts
  rw [filterMap_slices_map_fst gpus.enum (texts_per_gpu texts.length gpus.length)
    texts.length (fun i => (texts.drop (i * texts_per_gpu texts.length gpus.length)).take
      (texts_per_gpu texts.length gpus.length)), List.enum_map_fst]

theorem le_mul_texts_per_gpu (n g : Nat) (hg : 0 < g) :
    n ≤ g * texts_per_gpu n g := by
  rcases Nat.eq_zero_or_pos n with h0 | h1
  · subst h0; exact Nat.zero_le _
  · unfold texts_per_gpu
    have hrw : n + g - 1 = (n - 1) + g := by omega
    rw [hrw, Nat.add_div_right _ hg]
    have hlt := Nat.lt_div_mul_add (a := n - 1) hg
    have : g * ((n - 1) / g + 1) = (n - 1) / g * g + g := by ring
    rw [this]
    omega

theorem distribute_texts_flatten (texts : List String) (gpus : List Nat)
    (hg : gpus ≠ []) :
    ((distribute_texts texts gpus).map Prod.fst).flatten = texts := by
  rw [distribute_texts_map_fst, slices_flatten]
  refine List.take_of_length_le ?_
  have hg0 : 0 < gpus.length := List.length_pos.mpr hg
  exact le_mul_texts_per_gpu texts.length gpus.length hg0

theorem find_arrival (r : Nat → List (List Int)) (order : List Nat) (i : Nat)
    (hi : i ∈ order) :
    (order.map (fun j => (j, r j))).find? (fun p => p.1 = i) = some (i, r i) := by
  induction order with
  | nil => simp at hi
  | cons a l ih =>
    by_cases h : a = i
    · subst h; simp [List.find?]
    · have hl : i ∈ l := by
        rcases List.mem_cons.mp hi with hh | hh
        · exact absurd hh.symm h
        · exact hh
      simp only [List.map_cons, List.find?]
      have : (decide (a = i)) = false := by simp [h]
      rw [this]
      exact ih hl

theorem range_length_map_getD {β : Type} (f : List String → β)
    (L : List (List String)) :
    (List.range L.length).map (fun i => f (L.getD i [])) = L.map f := by
  induction L with
  | nil => simp
  | cons a L ih =>
    have hlen : (a :: L).length = L.length + 1 := rfl
    rw [hlen, List.range_succ_eq_map, List.map_cons, List.map_map]
    have hfun : ((fun i => f ((a :: L).getD i [])) ∘ Nat.succ) =
        fun i => f (L.getD i []) := by
      funext i
      simp [List.getD_cons_succ]
    rw [hfun, ih]
    simp [List.getD_cons_zero]

/-- C9.  Parallel embedding preserves input order: for a non-empty text list
and non-empty GPU list, `_distribute_texts` partitions the texts into
contiguous slices of `ceil(n / worker_count)` texts (one slice per device, in
order, so that the concatenation of the slices is exactly the input list and
every slice has at most the ceiling size), and the combined result matrix of
`embed` equals the per-text embeddings in input order for EVERY completion
order of the per-device batches. -/
theorem parallel_embed_preserves_order (f : String → List Int)
    (texts : List String) (gpus : List Nat) (order : List Nat)
    (_htexts : texts ≠ []) (hgpus : gpus ≠ [])
    (horder : order.Perm
      (List.range ((distribute_texts texts gpus).map Prod.fst).length)) :
    ((distribute_texts texts gpus).map Prod.fst).flatten = texts ∧
    (∀ b ∈ distribute_texts texts gpus,
        b.1.length ≤ texts_per_gpu texts.length gpus.length) ∧
    parallel_embed f texts gpus order = texts.map f := by
  have hflat := distribute_texts_flatten texts gpus hgpus
  refine ⟨hflat, ?_, ?_⟩
  · intro b hb
    unfold distribute_texts at hb
    rcases List.mem_filterMap.mp hb with ⟨p, _, hp⟩
    by_cases h : p.1 * texts_per_gpu texts.length gpus.length < texts.length
    · rw [if_pos h] at hp
      cases hp
      simp
    · rw [if_neg h] at hp
      cases hp
  · unfold parallel_embed combineInIndexOrder batchArrivals
    have hmap : (List.range ((distribute_texts texts gpus).map Prod.fst).length).map
        (fun i =>
          ((((order.map (fun j =>
              (j, (((distribute_texts texts gpus).map Prod.fst).getD j []).map f))).find?
            (fun p => p.1 = i)).map Prod.snd).getD [])) =
        (List.range ((distribute_texts texts gpus).map Prod.fst).length).map
        (fun i => (((distribute_texts texts gpus).map Prod.fst).getD i []).map f) := by
      refine List.map_congr_left ?_
      intro i hi
      have hio : i ∈ order := (horder.mem_iff).mpr hi
      rw [find_arrival (fun j =>
        (((distribute_texts texts gpus).map Prod.fst).getD j []).map f) order i hio]
      rfl
    rw [hmap, range_length_map_getD (fun b => b.map f)]
    rw [← List.map_flatten, hflat]

/-- Toy per-text embedder for the parallel-embedder witness. -/
def demoEmbedOne (s : String) : List Int := [(s.length : Int)]

/-- Texts used in the parallel-embedder witness: five texts over two GPUs,
so two contiguous slices of ceiling size 3. -/
def demoTexts : List String := ["aa", "b", "ccc", "dd", "e"]

/-- Witness for C9: five texts distributed over GPUs 6 and 7 form slices of
at most 3 texts whose concatenation is the input, and combining the two
batches in the reversed completion order `[1, 0]` still yields the rows in
input order. -/
theorem parallel_embed_preserves_order_witness :
    ((distribute_texts demoTexts [6, 7]).map Prod.fst).flatten = demoTexts ∧
    (∀ b ∈ distribute_texts demoTexts [6, 7],
        b.1.length ≤ texts_per_gpu demoTexts.length ([6, 7] : List Nat).length) ∧
    parallel_embed demoEmbedOne demoTexts [6, 7] [1, 0] =
      demoTexts.map demoEmbedOne :=
  parallel_embed_preserves_order demoEmbedOne demoTexts [6, 7] [1, 0]
    (by decide) (by decide) (by decide)

/-! ## Document/chunk store (src/models.py) and vector index manager
(src/index_manager.py) -/

/-- A row of the `docs` table (src/models.py, class Document).  The
`namespace` column is called `ns` here because `namespace` is a Lean keyword;
timestamps are naturals; `deleted_at = none` means the document is live. -/
structure DocRec where
  doc_id : String
  tenant_id : String
  ns : String
  source : Option String
  doc_hash : String
  meta_json : Option String
  policy_id : Option String
  embedding_model_id : String
  embedding_version : String
  created_at : Nat
  updated_at : Nat
  deleted_at : Option Nat
  deriving DecidableEq, Repr

/-- A row of the `chunks` table (src/models.py, class Chunk). -/
structure ChunkRec where
  chunk_id : String
  doc_id : String
  tenant_id : String
  ns : String
  chunk_hash : String
  text : String
  embed_text : Option String
  meta_json : Option String
  policy_id : Option String
  embedding_model_id : String
  embedding_version : String
  faiss_id : Option Int
  created_at : Nat
  deleted_at : Option Nat
  deriving DecidableEq, Repr

/-- A row of the `indices` table (src/models.py, class IndexMetadata). -/
structure IndexMetaRec where
  tenant_id : String
  ns : String
  embedding_version : String
  faiss_path : String
  ntotal : Nat
  dimension : Nat
  updated_at : Nat
  dirty : Bool
  deriving DecidableEq, Repr

/-- The committed relational state: the `docs`, `chunks` and `indices`
tables. -/
structure DBState where
  docs : List DocRec
  chunks : List ChunkRec
  metas : List IndexMetaRec
  deriving DecidableEq, Repr

/-- An embedding vector; the flat inner-product index is its ordered list of
vectors, so `ntotal` is the list length and positional ids are list
positions. -/
abbrev Vec := List Int

/-- In-memory FAISS flat index: the ordered vectors it holds. -/
abbrev FaissIndex := List Vec

/-- Durable system state: the committed database plus the index files on
disk (path to serialized index contents). -/
structure Sys where
  db : DBState
  fs : List (String × FaissIndex)
  deriving DecidableEq, Repr

/-- Read a file: first association for the path, `none` when absent. -/
def fsLookup (fs : List (String × FaissIndex)) (path : String) :
    Option FaissIndex :=
  (fs.find? (fun p => p.1 == path)).map Prod.snd

/-- Write (create or overwrite) a file at `path`. -/
def fsWrite (fs : List (String × FaissIndex)) (path : String)
    (content : FaissIndex) : List (String × FaissIndex) :=
  if (fs.find? (fun p => p.1 == path)).isSome then
    fs.map (fun p => if p.1 == path then (path, content) else p)
  else
    fs ++ [(path, content)]

/-- Remove a file. -/
def fsRemove (fs : List (String × FaissIndex)) (path : String) :
    List (String × FaissIndex) :=
  fs.filter (fun p => !(p.1 == path))

/-- Update the first list element satisfying `p` (the model of SQLAlchemy's
`query(...).first()` followed by mutating the fetched row and committing). -/
def updateFirst {α : Type} (p : α → Bool) (f : α → α) : List α → List α
  | [] => []
  | x :: xs => if p x then f x :: xs else x :: updateFirst p f xs

/-- Key match for an `indices` row against a `(tenant, namespace, version)`
triple. -/
def metaKey (t n v : String) (m : IndexMetaRec) : Bool :=
  m.tenant_id == t && m.ns == n && m.embedding_version == v

/-- Replace every `/` and `\` by `_` (the sanitization in
`IndexManager._get_index_path`; the replaced patterns are single characters,
so per-character replacement is equivalent to the two `str.replace` calls). -/
def sanitize_part (s : String) : String :=
  String.mk (s.data.map (fun c => if c = '/' ∨ c = '\\' then '_' else c))

/-- `IndexManager._get_index_path`: sanitize the three key parts and build
`{tenant}_{namespace}_{version}.faiss` under the index directory. -/
def get_index_path (indexDir tenant ns version : String) : String :=
  indexDir ++ "/" ++ sanitize_part tenant ++ "_" ++ sanitize_part ns ++ "_" ++
    sanitize_part version ++ ".faiss"

/-- `IndexManager.load_index` (src/index_manager.py lines 56-133): find the
metadata row; when it exists and its file is readable, return the loaded
index without writing anything; otherwise build an empty index, create or
reset the metadata row and commit that row.  Returns the in-memory index,
the metadata view and the (possibly changed) durable state. -/
def load_index (sys : Sys) (indexDir t n v : String) (dim : Nat) (now : Nat) :
    FaissIndex × IndexMetaRec × Sys :=
  match sys.db.metas.find? (metaKey t n v) with
  | some meta =>
    match fsLookup sys.fs meta.faiss_path with
    | some content => (content, meta, sys)
    | none =>
      let path := get_index_path indexDir t n v
      let meta' : IndexMetaRec :=
        { meta with faiss_path := path, dimension := dim, ntotal := 0,
                    dirty := false, updated_at := now }
      (([] : FaissIndex), meta',
        { sys with db := { sys.db with
            metas := updateFirst (metaKey t n v) (fun _ => meta') sys.db.metas } })
  | none =>
    let path := get_index_path indexDir t n v
    let meta : IndexMetaRec :=
      { tenant_id := t, ns := n, embedding_version := v, faiss_path := path,
        ntotal := 0, dimension := dim, updated_at := now, dirty := false }
    (([] : FaissIndex), meta,
      { sys with db := { sys.db with metas := sys.db.metas ++ [meta] } })

/-- `IndexManager.mark_dirty`: set `dirty` on the metadata row for the key,
in its own committed session; no-op when the row does not exist. -/
def mark_dirty (sys : Sys) (t n v : String) (now : Nat) : Sys :=
  { sys with db := { sys.db with
      metas := updateFirst (metaKey t n v)
        (fun m => { m with dirty := true, updated_at := now }) sys.db.metas } }

/-- `IndexManager.add_vectors` (src/index_manager.py lines 326-366): grow the
in-memory index by the vectors and compute the contiguous positional id range
`[start_id, start_id + n)`; then, in a NEW session reading the committed
state, set `faiss_id` on each chunk row found by `chunk_id` and commit.
Chunk rows that the new session cannot see (for instance rows still pending
in the caller's uncommitted transaction) are silently left untouched. -/
def add_vectors (sys : Sys) (index : FaissIndex) (vectors : List Vec)
    (chunk_ids : List String) : Sys × FaissIndex × List Int :=
  if vectors.length = 0 then (sys, index, [])
  else
    let start_id := index.length
    let index' := index ++ vectors
    let faiss_ids := (List.range vectors.length).map
      (fun i => (Int.ofNat (start_id + i)))
    let chunks' := (chunk_ids.zip faiss_ids).foldl
      (fun acc p => updateFirst (fun c => c.chunk_id == p.1)
        (fun c => { c with faiss_id := some p.2 }) acc) sys.db.chunks
    ({ sys with db := { sys.db with chunks := chunks' } }, index', faiss_ids)

/-- `IndexManager.save_index` with `atomic=True` (src/index_manager.py lines
135-205), committed to completion: the durable net effect of
mkstemp/write/fsync/replace is that the destination file holds the index;
afterwards a new session re-fetches the metadata row by key and, when found,
sets `ntotal` and `updated_at` and clears `dirty`. -/
def save_index (sys : Sys) (index : FaissIndex) (meta : IndexMetaRec)
    (now : Nat) : Sys :=
  let fs' := fsWrite sys.fs meta.faiss_path index
  { db := { sys.db with
      metas := updateFirst
        (metaKey meta.tenant_id meta.ns meta.embedding_version)
        (fun m => { m with ntotal := index.length, updated_at := now,
                           dirty := false }) sys.db.metas },
    fs := fs' }

/-- Step-indexed model of `IndexManager.save_index` with `atomic=True` for
crash analysis: apply only the first `k` of its five steps (1 `mkstemp`,
2 `faiss.write_index` to the temp file, 3 `fsync`, 4 `os.replace` onto the
destination, 5 metadata update in a fresh session).  A crash at point `k`
leaves exactly this state. -/
def save_index_crash (sys : Sys) (index : FaissIndex) (meta : IndexMetaRec)
    (tempPath : String) (now : Nat) (k : Nat) : Sys :=
  let s1 := if 1 ≤ k then { sys with fs := fsWrite sys.fs tempPath [] } else sys
  let s2 := if 2 ≤ k then { s1 with fs := fsWrite s1.fs tempPath index } else s1
  let s3 := s2
  let s4 := if 4 ≤ k then
      let moved := fsWrite s3.fs meta.faiss_path ((fsLookup s3.fs tempPath).getD [])
      { s3 with fs := fsRemove moved tempPath }
    else s3
  if 5 ≤ k then
    { s4 with db := { s4.db with
        metas := updateFirst
          (metaKey meta.tenant_id meta.ns meta.embedding_version)
          (fun m => { m with ntotal := index.length, updated_at := now,
                             dirty := false }) s4.db.metas } }
  else s4

/-! ## Search with deleted-chunk filtering (src/app_v1.py, v1_search) -/

/-- The chunk lookup inside `v1_search`: find the chunk row whose
`(tenant_id, namespace, embedding_version, faiss_id)` match and whose
`deleted_at` is null. -/
def find_chunk_by_faiss (chunks : List ChunkRec) (t n v : String)
    (fid : Int) : Option ChunkRec :=
  chunks.find? (fun c => c.tenant_id == t && c.ns == n &&
    c.embedding_version == v && c.faiss_id == some fid &&
    c.deleted_at == (none : Option Nat))

/-- The result loop of `v1_search` (src/app_v1.py lines 715-739): walk the
FAISS candidate ids in order; skip `-1`; look up each id through the store
filtered by `deleted_at is null` and skip unresolved ids; after each resolved
candidate, stop as soon as `top_k` results have been collected. -/
def search_collect (chunks : List ChunkRec) (t n v : String) (top_k : Nat) :
    List Int → List ChunkRec → List ChunkRec
  | [], acc => acc
  | fid :: rest, acc =>
    if fid = -1 then search_collect chunks t n v top_k rest acc
    else
      let acc' := match find_chunk_by_faiss chunks t n v fid with
        | none => acc
        | some c => acc ++ [c]
      if top_k ≤ acc'.length then acc'
      else search_collect chunks t n v top_k rest acc'

/-- `v1_search` (src/app_v1.py lines 676-747): resolve the embedding version,
load the index, return empty when the index holds no vectors, otherwise run
the candidate loop over the FAISS result ids `cands` (the external FAISS
call `index.search` returns `min(top_k * 3, ntotal)` candidate ids; they are
a parameter here). -/
def v1_search (sys : Sys) (indexDir t n : String) (ver : Option String)
    (defaultVer : String) (top_k : Nat) (now : Nat) (cands : List Int) :
    List ChunkRec × Sys :=
  let v := ver.getD defaultVer
  let li := load_index sys indexDir t n v 1024 now
  if li.1.length = 0 then ([], li.2.2)
  else (search_collect li.2.2.db.chunks t n v top_k cands [], li.2.2)

theorem load_index_chunks (sys : Sys) (indexDir t n v : String) (dim now : Nat) :
    (load_index sys indexDir t n v dim now).2.2.db.chunks = sys.db.chunks := by
  unfold load_index
  cases h : sys.db.metas.find? (metaKey t n v) with
  | none => rfl
  | some meta => cases h2 : fsLookup sys.fs meta.faiss_path <;> simp only [h2]

theorem find_chunk_by_faiss_spec {chunks : List ChunkRec} {t n v : String}
    {fid : Int} {c : ChunkRec}
    (h : find_chunk_by_faiss chunks t n v fid = some c) :
    c ∈ chunks ∧ c.deleted_at = none ∧ c.tenant_id = t ∧ c.ns = n ∧
      c.embedding_version = v ∧ c.faiss_id = some fid := by
  have hmem := List.mem_of_find?_eq_some h
  have hp := List.find?_some h
  simp only [Bool.and_eq_true, beq_iff_eq] at hp
  exact ⟨hmem, hp.2, hp.1.1.1.1, hp.1.1.1.2, hp.1.1.2, hp.1.2⟩

theorem search_collect_sub (chunks : List ChunkRec) (t n v : String)
    (top_k : Nat) (P : ChunkRec → Prop)
    (hP : ∀ c, c ∈ chunks → c.deleted_at = none → c.tenant_id = t → c.ns = n →
      c.embedding_version = v → P c) :
    ∀ cands acc, (∀ c ∈ acc, P c) →
      ∀ c ∈ search_collect chunks t n v top_k cands acc, P c := by
  intro cands
  induction cands with
  | nil => intro acc hacc c hc; exact hacc c hc
  | cons fid rest ih =>
    intro acc hacc c hc
    unfold search_collect at hc
    by_cases hm1 : fid = -1
    · rw [if_pos hm1] at hc
      exact ih acc hacc c hc
    · rw [if_neg hm1] at hc
      cases hfind : find_chunk_by_faiss chunks t n v fid with
      | none =>
        rw [hfind] at hc
        simp only at hc
        by_cases hstop : top_k ≤ acc.length
        · rw [if_pos hstop] at hc; exact hacc c hc
        · rw [if_neg hstop] at hc; exact ih acc hacc c hc
      | some d =>
        rw [hfind] at hc
        simp only at hc
        have hd := find_chunk_by_faiss_spec hfind
        have hacc' : ∀ x ∈ acc ++ [d], P x := by
          intro x hx
          rcases List.mem_append.mp hx with hx | hx
          · exact hacc x hx
          · have : x = d := by simpa using hx
            subst this
            exact hP x hd.1 hd.2.1 hd.2.2.1 hd.2.2.2.1 hd.2.2.2.2.1
        by_cases hstop : top_k ≤ (acc ++ [d]).length
        · rw [if_pos hstop] at hc; exact hacc' c hc
        · rw [if_neg hstop] at hc; exact ih (acc ++ [d]) hacc' c hc

theorem search_collect_length (chunks : List ChunkRec) (t n v : String)
    (top_k : Nat) :
    ∀ cands acc, acc.length < top_k →
      (search_collect chunks t n v top_k cands acc).length ≤ top_k := by
  intro cands
  induction cands with
  | nil => intro acc hacc; exact le_of_lt hacc
  | cons fid rest ih =>
    intro acc hacc
    unfold search_collect
    by_cases hm1 : fid = -1
    · rw [if_pos hm1]; exact ih acc hacc
    · rw [if_neg hm1]
      cases hfind : find_chunk_by_faiss chunks t n v fid with
      | none =>
        simp only
        by_cases hstop : top_k ≤ acc.length
        · exact absurd hstop (not_le.mpr hacc)
        · rw [if_neg hstop]; exact ih acc hacc
      | some d =>
        simp only
        by_cases hstop : top_k ≤ (acc ++ [d]).length
        · rw [if_pos hstop]
          have : (acc ++ [d]).length = acc.length + 1 := by simp
          omega
        · rw [if_neg hstop]
          exact ih (acc ++ [d]) (lt_of_not_le hstop)

/-- C1.  The search result never contains a soft-deleted chunk: every chunk
returned by `v1_search` is a stored chunk of the requested tenant, namespace
and embedding version whose `deleted_at` is null at query time (each FAISS id
is resolved through the store filtered by `deleted_at is null` and unresolved
ids are skipped), and at most `top_k` live results are returned (the loop
stops once `top_k` live results are collected; the candidate list itself has
length `min(top_k * 3, ntotal)`). -/
theorem v1_search_only_live_chunks (sys : Sys) (indexDir t n : String)
    (ver : Option String) (defaultVer : String) (top_k : Nat) (now : Nat)
    (cands : List Int)
    (hc : cands.length = min (3 * top_k)
      (load_index sys indexDir t n (ver.getD defaultVer) 1024 now).1.length) :
    (∀ c ∈ (v1_search sys indexDir t n ver defaultVer top_k now cands).1,
        c ∈ sys.db.chunks ∧ c.deleted_at = none ∧ c.tenant_id = t ∧
        c.ns = n ∧ c.embedding_version = ver.getD defaultVer) ∧
    (v1_search sys indexDir t n ver defaultVer top_k now cands).1.length ≤
      top_k := by
  unfold v1_search
  by_cases hz :
      (load_index sys indexDir t n (ver.getD defaultVer) 1024 now).1.length = 0
  · simp only [hz, if_pos rfl]
    constructor
    · intro c hcm; simp at hcm
    · simp
  · simp only [if_neg hz]
    constructor
    · intro c hcm
      rw [load_index_chunks] at hcm
      have := search_collect_sub sys.db.chunks t n (ver.getD defaultVer) top_k
        (fun c => c ∈ sys.db.chunks ∧ c.deleted_at = none ∧ c.tenant_id = t ∧
          c.ns = n ∧ c.embedding_version = ver.getD defaultVer)
        (fun c h1 h2 h3 h4 h5 => ⟨h1, h2, h3, h4, h5⟩) cands []
        (by intro c hcx; simp at hcx) c hcm
      exact this
    · rw [load_index_chunks]
      rcases Nat.eq_zero_or_pos top_k with h0 | hpos
      · subst h0
        simp only [Nat.mul_zero, Nat.zero_min] at hc
        have : cands = [] := List.eq_nil_of_length_eq_zero (by omega)
        subst this
        simp [search_collect]
      · exact search_collect_length sys.db.chunks t n (ver.getD defaultVer)
          top_k cands [] (by simpa using hpos)

/-- Metadata row used by the search and save witnesses. -/
def demoMeta : IndexMetaRec :=
  { tenant_id := "t", ns := "n", embedding_version := "v",
    faiss_path := "ix/t_n_v.faiss", ntotal := 3, dimension := 1,
    updated_at := 0, dirty := false }

/-- A chunk row of the demo store. -/
def demoChunk (cid : String) (fid : Int) (del : Option Nat) : ChunkRec :=
  { chunk_id := cid, doc_id := "d", tenant_id := "t", ns := "n",
    chunk_hash := "h", text := cid, embed_text := none, meta_json := none,
    policy_id := none, embedding_model_id := "m", embedding_version := "v",
    faiss_id := some fid, created_at := 0, deleted_at := del }

/-- Demo system: three indexed chunks, the one at FAISS id 1 soft-deleted. -/
def demoSearchSys : Sys :=
  { db := { docs := [],
            chunks := [demoChunk "c0" 0 none, demoChunk "c1" 1 (some 7),
                       demoChunk "c2" 2 none],
            metas := [demoMeta] },
    fs := [("ix/t_n_v.faiss", [[1], [2], [3]])] }

/-- Witness for C1: searching the demo store with `top_k = 1` and FAISS
candidates `[1, 0, 2]` (the deleted chunk ranked first) returns only live
chunks of the requested key and at most one result. -/
theorem v1_search_only_live_chunks_witness :
    (∀ c ∈ (v1_search demoSearchSys "ix" "t" "n" none "v" 1 9 [1, 0, 2]).1,
        c ∈ demoSearchSys.db.chunks ∧ c.deleted_at = none ∧
        c.tenant_id = "t" ∧ c.ns = "n" ∧ c.embedding_version = "v") ∧
    (v1_search demoSearchSys "ix" "t" "n" none "v" 1 9 [1, 0, 2]).1.length ≤ 1 :=
  v1_search_only_live_chunks demoSearchSys "ix" "t" "n" none "v" 1 9 [1, 0, 2]
    (by decide)

theorem find?_fsWrite_present (fs : List (String × FaissIndex)) (path : String)
    (c : FaissIndex) (h : (fs.find? (fun p => p.1 == path)).isSome) :
    (fs.map (fun p => if p.1 == path then (path, c) else p)).find?
      (fun p => p.1 == path) = some (path, c) := by
  induction fs with
  | nil => simp [List.find?] at h
  | cons q fs ih =>
    by_cases hq : (q.1 == path) = true
    · simp only [List.map_cons, hq, if_pos]
      rw [List.find?_cons_of_pos]
      simp
    · simp only [List.map_cons, hq, if_neg, Bool.not_eq_true]
      rw [List.find?_cons_of_neg _ (by simpa using hq)]
      apply ih
      rw [List.find?_cons_of_neg _ (by simpa using hq)] at h
      exact h

theorem fsLookup_fsWrite_self (fs : List (String × FaissIndex)) (path : String)
    (c : FaissIndex) : fsLookup (fsWrite fs path c) path = some c := by
  unfold fsWrite fsLookup
  by_cases h : (fs.find? (fun p => p.1 == path)).isSome
  · rw [if_pos h, find?_fsWrite_present fs path c h]
    rfl
  · rw [if_neg h, List.find?_append]
    have hnone : fs.find? (fun p => p.1 == path) = none :=
      Option.not_isSome_iff_eq_none.mp h
    rw [hnone]
    simp [List.find?]

theorem find?_map_overwrite_ne (fs : List (String × FaissIndex))
    (path path' : String) (c : FaissIndex) (h : path ≠ path') :
    (fs.map (fun p => if p.1 == path' then (path', c) else p)).find?
      (fun p => p.1 == path) = fs.find? (fun p => p.1 == path) := by
  have hb : (path' == path) = false := beq_eq_false_iff_ne.mpr (Ne.symm h)
  induction fs with
  | nil => rfl
  | cons q fs ih =>
    by_cases hq : (q.1 == path') = true
    · have hq' : q.1 = path' := by simpa using hq
      have htest : (q.1 == path) = false := by rw [hq']; exact hb
      simp only [List.map_cons, hq, if_pos]
      rw [@List.find?_cons_of_neg _ (fun p => p.1 == path) (path', c) _
          (by simp [hb]),
        @List.find?_cons_of_neg _ (fun p => p.1 == path) q _ (by simp [htest])]
      exact ih
    · simp only [List.map_cons, hq, if_neg, Bool.not_eq_true]
      by_cases htest : (q.1 == path) = true
      · rw [@List.find?_cons_of_pos _ (fun p => p.1 == path) q _ htest,
          @List.find?_cons_of_pos _ (fun p => p.1 == path) q _ htest]
      · rw [@List.find?_cons_of_neg _ (fun p => p.1 == path) q _
            (by simpa using htest),
          @List.find?_cons_of_neg _ (fun p => p.1 == path) q _
            (by simpa using htest)]
        exact ih

theorem fsLookup_fsWrite_ne (fs : List (String × FaissIndex))
    (path path' : String) (c : FaissIndex) (h : path ≠ path') :
    fsLookup (fsWrite fs path' c) path = fsLookup fs path := by
  unfold fsWrite fsLookup
  by_cases hp : (fs.find? (fun p => p.1 == path')).isSome
  · rw [if_pos hp, find?_map_overwrite_ne fs path path' c h]
  · rw [if_neg hp, List.find?_append]
    have hb : (path' == path) = false := beq_eq_false_iff_ne.mpr (Ne.symm h)
    have : ([(path', c)].find? (fun p => p.1 == path)) = none := by
      simp [List.find?, hb]
    rw [this]
    simp

theorem fsLookup_fsRemove_ne (fs : List (String × FaissIndex))
    (path path' : String) (h : path ≠ path') :
    fsLookup (fsRemove fs path') path = fsLookup fs path := by
  unfold fsRemove fsLookup
  have hb : (path' == path) = false := beq_eq_false_iff_ne.mpr (Ne.symm h)
  induction fs with
  | nil => rfl
  | cons q fs ih =>
    by_cases hq : (q.1 == path') = true
    · have hq' : q.1 = path' := by simpa using hq
      have htest : (q.1 == path) = false := by rw [hq']; exact hb
      rw [List.filter_cons_of_neg (by simp [hq]),
        @List.find?_cons_of_neg _ (fun p => p.1 == path) q _
          (by simp [htest])]
      exact ih
    · rw [List.filter_cons_of_pos (by simpa using hq)]
      by_cases htest : (q.1 == path) = true
      · rw [@List.find?_cons_of_pos _ (fun p => p.1 == path) q _ htest,
          @List.find?_cons_of_pos _ (fun p => p.1 == path) q _ htest]
      · rw [@List.find?_cons_of_neg _ (fun p => p.1 == path) q _
            (by simpa using htest),
          @List.find?_cons_of_neg _ (fun p => p.1 == path) q _
            (by simpa using htest)]
        exact ih

/-- C4.  Atomic index save: `save_index` with `atomic=True` writes the index
to a sibling temp file, fsyncs, atomically replaces the destination, and only
then (step 5) updates `ntotal`/`updated_at` and clears `dirty` on the
metadata row.  A crash at any point up to and including the fsync (k ≤ 3)
leaves the persisted destination file byte-identical to its pre-call contents
and the database untouched; after the rename (k = 4) the destination holds
the new index while the database is still untouched; only the final step
updates the metadata row. -/
theorem save_index_atomic_crash_safe (sys : Sys) (index : FaissIndex)
    (meta : IndexMetaRec) (tempPath : String) (now : Nat)
    (htemp : tempPath ≠ meta.faiss_path) :
    (∀ k, k ≤ 3 →
      fsLookup (save_index_crash sys index meta tempPath now k).fs
        meta.faiss_path = fsLookup sys.fs meta.faiss_path) ∧
    (∀ k, k ≤ 4 → (save_index_crash sys index meta tempPath now k).db = sys.db) ∧
    fsLookup (save_index_crash sys index meta tempPath now 4).fs
      meta.faiss_path = some index ∧
    (save_index_crash sys index meta tempPath now 5).db.metas =
      updateFirst (metaKey meta.tenant_id meta.ns meta.embedding_version)
        (fun m => { m with ntotal := index.length, updated_at := now,
                           dirty := false }) sys.db.metas ∧
    fsLookup (save_index_crash sys index meta tempPath now 5).fs
      meta.faiss_path = some index := by
  have hne : meta.faiss_path ≠ tempPath := fun hh => htemp hh.symm
  have hfs4 : fsLookup (save_index_crash sys index meta tempPath now 4).fs
      meta.faiss_path = some index := by
    show fsLookup (save_index_crash sys index meta tempPath now 4).fs
      meta.faiss_path = some index
    unfold save_index_crash
    norm_num
    rw [fsLookup_fsRemove_ne _ _ _ hne, fsLookup_fsWrite_self,
      fsLookup_fsWrite_self]
    simp
  refine ⟨?_, ?_, hfs4, ?_, ?_⟩
  · intro k hk
    unfold save_index_crash
    have h5 : ¬ 5 ≤ k := by omega
    have h4 : ¬ 4 ≤ k := by omega
    rw [if_neg h5, if_neg h4]
    by_cases h2 : 2 ≤ k <;> by_cases h1 : 1 ≤ k <;>
      simp only [h2, h1, if_true, if_false, if_pos, if_neg, not_false_iff] <;>
      first
        | rfl
        | (rw [fsLookup_fsWrite_ne _ _ _ _ hne];
           try rw [fsLookup_fsWrite_ne _ _ _ _ hne])
  · intro k hk
    unfold save_index_crash
    have h5 : ¬ 5 ≤ k := by omega
    rw [if_neg h5]
    by_cases h4 : 4 ≤ k <;> by_cases h2 : 2 ≤ k <;> by_cases h1 : 1 ≤ k <;>
      simp [h4, h2, h1]
  · unfold save_index_crash
    norm_num
  · show fsLookup (save_index_crash sys index meta tempPath now 5).fs
      meta.faiss_path = some index
    unfold save_index_crash
    norm_num
    rw [fsLookup_fsRemove_ne _ _ _ hne, fsLookup_fsWrite_self,
      fsLookup_fsWrite_self]
    simp

/-- Witness for C4: on the demo system (whose destination file holds three
vectors), a crash right after the temp-file write (k = 2) leaves the
destination file with its old three vectors and the metadata row untouched,
while the completed save (k = 5) replaces the file with the new two-vector
index and updates the metadata row. -/
theorem save_index_atomic_crash_safe_witness :
    fsLookup (save_index_crash demoSearchSys [[9], [8]] demoMeta "ix/tmp1" 5 2).fs
      "ix/t_n_v.faiss" = some [[1], [2], [3]] ∧
    (save_index_crash demoSearchSys [[9], [8]] demoMeta "ix/tmp1" 5 2).db =
      demoSearchSys.db ∧
    fsLookup (save_index_crash demoSearchSys [[9], [8]] demoMeta "ix/tmp1" 5 5).fs
      "ix/t_n_v.faiss" = some [[9], [8]] := by
  have h := save_index_atomic_crash_safe demoSearchSys [[9], [8]] demoMeta
    "ix/tmp1" 5 (by decide)
  refine ⟨?_, h.2.1 2 (by omega), h.2.2.2.2⟩
  have h2 := h.1 2 (by omega)
  exact h2.trans (by decide)

/-! ## Upsert coordinator (src/app_v1.py, upsert_document_sync)

The pure collaborators are parameters of `UpsertCtx`:
`doc_hash_fn` models `compute_doc_hash` / `_normalize_text_for_hash` and
`chunk_hash_fn` models `_chunk_hash` — both are imported from `app.py` but
their definitions are not part of the sources here, and only their
determinism matters for the claims; `chunker` models
`chunk_text_with_strategy`; `enricher` the contextual enricher (an external
collaborator per the spec); `embed_one` the embedding model.

Session semantics: helper calls (`mark_dirty`, `load_index`, `add_vectors`,
`save_index`) each run and COMMIT in their own fresh session, which reads
only the committed state; the rows that `upsert_document_sync` has inserted
or updated in its own still-open session are applied to the committed state
only by its final `session.commit()` and are discarded by `rollback` on any
exception. -/

/-- A `DocUpsertRequest` of the v1 API (src/app_v1.py lines 55-66). -/
structure UpsertReq where
  tenant_id : String
  ns : String
  doc_id : String
  source : Option String
  text : String
  meta_json : Option String
  policy_id : Option String
  chunk_strategy : Option String
  chunk_overlap : Nat
  enrich_context : Bool
  deriving DecidableEq, Repr

/-- Module configuration and pure collaborators of the upsert path. -/
structure UpsertCtx where
  index_dir : String
  embed_model_name : String
  embedding_version : String
  context_enabled : Bool
  doc_hash_fn : String → String
  chunk_hash_fn : String → String
  chunker : String → Option String → String → Nat → List String
  enricher : List String → List String
  embed_one : String → Vec
  dim : Nat

/-- The statistics dictionary returned by `upsert_document_sync`. -/
structure UpsertStats where
  chunks_created : Nat
  was_update : Bool
  skipped : Bool
  deriving DecidableEq, Repr

/-- Injected failure points of `upsert_document_sync`: an exception inside
`embed_texts`, an exception while `save_index` writes the index file (before
the atomic replace), or a failure of the final `session.commit()`. -/
inductive FailPoint
  | embed
  | saveFile
  | finalCommit
  deriving DecidableEq, Repr

/-- Zero-padded 4-digit ordinal used in chunk ids (Python `f"c{i:04d}"`). -/
def pad4 (i : Nat) : String :=
  let s := toString i
  String.mk (List.replicate (4 - s.length) '0') ++ s

/-- The chunk rows built by `upsert_document_sync` (src/app_v1.py lines
241-261): deterministic ids `{doc_id}#c{ordinal}`, `embed_text` kept only
when it differs from the raw text, `faiss_id` initially null. -/
def buildChunks (ctx : UpsertCtx) (req : UpsertReq)
    (chunks_text embed_list : List String) (now : Nat) : List ChunkRec :=
  (chunks_text.zip embed_list).enum.map (fun p =>
    { chunk_id := req.doc_id ++ "#c" ++ pad4 p.1,
      doc_id := req.doc_id, tenant_id := req.tenant_id, ns := req.ns,
      chunk_hash := ctx.chunk_hash_fn p.2.1, text := p.2.1,
      embed_text := if p.2.2 == p.2.1 then none else some p.2.2,
      meta_json := none, policy_id := req.policy_id,
      embedding_model_id := ctx.embed_model_name,
      embedding_version := ctx.embedding_version,
      faiss_id := none, created_at := now, deleted_at := none })

/-- The final `session.commit()` of the upsert: apply the buffered writes of
the upsert's own session (document row create/update, soft-deletion of the
old chunks when the existing document was live, new chunk rows) atomically
to the committed state. -/
def applyOuter (sys : Sys) (req : UpsertReq) (newDoc : DocRec)
    (wasExisting : Bool) (deleteOld : Bool) (chunkRecs : List ChunkRec)
    (now : Nat) : Sys :=
  let docs' := if wasExisting then
      updateFirst (fun d => d.doc_id == req.doc_id) (fun _ => newDoc)
        sys.db.docs
    else sys.db.docs ++ [newDoc]
  let chunksDel := if deleteOld then
      sys.db.chunks.map (fun c =>
        if c.doc_id == req.doc_id then { c with deleted_at := some now } else c)
    else sys.db.chunks
  let db' := { sys.db with docs := docs', chunks := chunksDel ++ chunkRecs }
  { sys with db := db' }

/-- The document row written by the upsert's session: the update of the
existing row (src/app_v1.py lines 172-184, including `deleted_at = None`) or
the freshly created row (lines 187-199). -/
def upsertDocRow (ctx : UpsertCtx) (req : UpsertReq) (doc_hash : String)
    (existing : Option DocRec) (now : Nat) : DocRec :=
  match existing with
  | some d =>
    { d with doc_hash := doc_hash, tenant_id := req.tenant_id, ns := req.ns,
             source := req.source, embedding_model_id := ctx.embed_model_name,
             embedding_version := ctx.embedding_version,
             policy_id := req.policy_id, updated_at := now,
             deleted_at := none, meta_json := req.meta_json }
  | none =>
    { doc_id := req.doc_id, tenant_id := req.tenant_id, ns := req.ns,
      source := req.source, doc_hash := doc_hash, meta_json := req.meta_json,
      policy_id := req.policy_id, embedding_model_id := ctx.embed_model_name,
      embedding_version := ctx.embedding_version, created_at := now,
      updated_at := now, deleted_at := none }

/-- The body of `upsert_document_sync` after the skip test (src/app_v1.py
lines 160-282).  In source order: soft-delete the old chunks and mark the
index dirty when the existing document is live (the `mark_dirty` session
commits immediately, the chunk deletions stay buffered); buffer the document
row; chunk; on an empty chunk list commit the buffer and return; enrich;
embed (failure here rolls the buffer back); `load_index` (commits its own
session when it creates or resets the metadata row); buffer the new chunk
rows and flush them — the flush raises when a buffered chunk id collides
with a committed chunk row's primary key, rolling the buffer back;
`add_vectors` (its own session sees only committed chunk rows);
`save_index`; the final commit applies the buffer. -/
def upsertCore (ctx : UpsertCtx) (sys : Sys) (req : UpsertReq) (now : Nat)
    (fail : Option FailPoint) (existing : Option DocRec) (doc_hash : String) :
    Except Unit UpsertStats × Sys :=
  let deleteOld := match existing with
    | some d => d.deleted_at = none
    | none => false
  let sys1 := match existing with
    | some d =>
      if d.deleted_at = none then
        mark_dirty sys req.tenant_id req.ns d.embedding_version now
      else sys
    | none => sys
  let newDoc := upsertDocRow ctx req doc_hash existing now
  let was_update := existing.isSome
  let chunks_text := ctx.chunker req.text req.chunk_strategy req.ns
    req.chunk_overlap
  if chunks_text.isEmpty then
    (Except.ok { chunks_created := 0, was_update := was_update,
                 skipped := false },
     applyOuter sys1 req newDoc was_update deleteOld [] now)
  else
    let embed_list := if req.enrich_context && ctx.context_enabled then
        ctx.enricher chunks_text
      else chunks_text
    if fail = some FailPoint.embed then (Except.error (), sys1)
    else
      let embeddings := embed_list.map ctx.embed_one
      let li := load_index sys1 ctx.index_dir req.tenant_id req.ns
        ctx.embedding_version ctx.dim now
      let index := li.1
      let meta := li.2.1
      let sys2 := li.2.2
      let chunkRecs := buildChunks ctx req chunks_text embed_list now
      let chunk_ids := chunkRecs.map (fun c => c.chunk_id)
      if chunk_ids.any (fun cid =>
          (sys2.db.chunks.find? (fun c => c.chunk_id == cid)).isSome) then
        (Except.error (), sys2)
      else
        let av := add_vectors sys2 index embeddings chunk_ids
        let sys3 := av.1
        let index' := av.2.1
        if fail = some FailPoint.saveFile then (Except.error (), sys3)
        else
          let sys4 := save_index sys3 index' meta now
          if fail = some FailPoint.finalCommit then (Except.error (), sys4)
          else
            (Except.ok { chunks_created := chunks_text.length,
                         was_update := was_update, skipped := false },
             applyOuter sys4 req newDoc was_update deleteOld chunkRecs now)

/-- `upsert_document_sync` (src/app_v1.py lines 139-290): compute the content
hash, look the document up by `doc_id`; when it exists, is not soft-deleted
and has the same hash, skip with no writes; otherwise run the upsert body. -/
def upsert_document_sync (ctx : UpsertCtx) (sys : Sys) (req : UpsertReq)
    (now : Nat) (fail : Option FailPoint) : Except Unit UpsertStats × Sys :=
  match sys.db.docs.find? (fun d => d.doc_id == req.doc_id) with
  | some d =>
    if d.doc_hash == ctx.doc_hash_fn req.text &&
        d.deleted_at == (none : Option Nat) then
      (Except.ok { chunks_created := 0, was_update := false, skipped := true },
       sys)
    else upsertCore ctx sys req now fail (some d) (ctx.doc_hash_fn req.text)
  | none => upsertCore ctx sys req now fail none (ctx.doc_hash_fn req.text)

theorem find?_updateFirst {α : Type} (p : α → Bool) (f : α → α) (l : List α)
    (hpf : ∀ x, p x = true → p (f x) = true) :
    (updateFirst p f l).find? p = (l.find? p).map f := by
  induction l with
  | nil => rfl
  | cons x xs ih =>
    by_cases hx : p x = true
    · unfold updateFirst
      rw [if_pos hx, List.find?_cons_of_pos _ (hpf x hx),
        List.find?_cons_of_pos _ hx]
      rfl
    · unfold updateFirst
      rw [if_neg hx, List.find?_cons_of_neg _ hx, List.find?_cons_of_neg _ hx]
      exact ih

theorem updateFirst_of_find?_none {α : Type} (p : α → Bool) (f : α → α)
    (l : List α) (h : l.find? p = none) : updateFirst p f l = l := by
  induction l with
  | nil => rfl
  | cons x xs ih =>
    have hall := List.find?_eq_none.mp h
    have hx : ¬ p x = true := hall x (List.mem_cons_self x xs)
    unfold updateFirst
    rw [if_neg hx]
    have hxs : xs.find? p = none :=
      List.find?_eq_none.mpr (fun y hy => hall y (List.mem_cons_of_mem x hy))
    rw [ih hxs]

theorem mark_dirty_docs (sys : Sys) (t n v : String) (now : Nat) :
    (mark_dirty sys t n v now).db.docs = sys.db.docs := rfl

theorem mark_dirty_chunks (sys : Sys) (t n v : String) (now : Nat) :
    (mark_dirty sys t n v now).db.chunks = sys.db.chunks := rfl

theorem load_index_docs (sys : Sys) (indexDir t n v : String) (dim now : Nat) :
    (load_index sys indexDir t n v dim now).2.2.db.docs = sys.db.docs := by
  unfold load_index
  cases h : sys.db.metas.find? (metaKey t n v) with
  | none => rfl
  | some meta => cases h2 : fsLookup sys.fs meta.faiss_path <;> simp only [h2]

theorem add_vectors_docs (sys : Sys) (index : FaissIndex) (vs : List Vec)
    (ids : List String) : (add_vectors sys index vs ids).1.db.docs =
      sys.db.docs := by
  unfold add_vectors
  split <;> rfl

theorem save_index_docs (sys : Sys) (index : FaissIndex) (meta : IndexMetaRec)
    (now : Nat) : (save_index sys index meta now).db.docs = sys.db.docs := rfl

theorem save_index_chunks (sys : Sys) (index : FaissIndex)
    (meta : IndexMetaRec) (now : Nat) :
    (save_index sys index meta now).db.chunks = sys.db.chunks := rfl

theorem add_vectors_chunks_unchanged (sys : Sys) (index : FaissIndex)
    (vs : List Vec) (ids : List String)
    (h : ∀ cid ∈ ids, sys.db.chunks.find? (fun c => c.chunk_id == cid) = none) :
    (add_vectors sys index vs ids).1.db.chunks = sys.db.chunks := by
  unfold add_vectors
  split
  · rfl
  · simp only
    have hgen : ∀ (l : List (String × Int)),
        (∀ p ∈ l, sys.db.chunks.find? (fun c => c.chunk_id == p.1) = none) →
        l.foldl (fun acc p => updateFirst (fun c => c.chunk_id == p.1)
          (fun c => { c with faiss_id := some p.2 }) acc) sys.db.chunks =
        sys.db.chunks := by
      intro l
      induction l with
      | nil => intro _; rfl
      | cons q l ih =>
        intro hl
        simp only [List.foldl_cons]
        rw [updateFirst_of_find?_none _ _ _ (hl q (List.mem_cons_self q l))]
        exact ih (fun p hp => hl p (List.mem_cons_of_mem q hp))
    exact hgen _ (fun p hp => h p.1 (List.of_mem_zip hp).1)

theorem upsertDocRow_doc_hash (ctx : UpsertCtx) (req : UpsertReq)
    (dh : String) (existing : Option DocRec) (now : Nat) :
    (upsertDocRow ctx req dh existing now).doc_hash = dh := by
  cases existing <;> rfl

theorem upsertDocRow_deleted_at (ctx : UpsertCtx) (req : UpsertReq)
    (dh : String) (existing : Option DocRec) (now : Nat) :
    (upsertDocRow ctx req dh existing now).deleted_at = none := by
  cases existing <;> rfl

theorem upsertCore_ok_find (ctx : UpsertCtx) (sys : Sys) (req : UpsertReq)
    (now : Nat) (existing : Option DocRec) (doc_hash : String)
    (r : UpsertStats) (sys1 : Sys)
    (hfind : sys.db.docs.find? (fun x => x.doc_id == req.doc_id) = existing)
    (h : upsertCore ctx sys req now none existing doc_hash =
      (Except.ok r, sys1)) :
    sys1.db.docs.find? (fun x => x.doc_id == req.doc_id) =
      some (upsertDocRow ctx req doc_hash existing now) := by
  have hpred : ∀ d, existing = some d →
      ((upsertDocRow ctx req doc_hash (some d) now).doc_id == req.doc_id) =
        true := by
    intro d hd
    subst hd
    have := List.find?_some hfind
    simpa [upsertDocRow] using this
  have happly : ∀ sysA : Sys, sysA.db.docs = sys.db.docs →
      ∀ (del : Bool) (recs : List ChunkRec),
      (applyOuter sysA req (upsertDocRow ctx req doc_hash existing now)
        existing.isSome del recs now).db.docs.find?
          (fun x => x.doc_id == req.doc_id) =
        some (upsertDocRow ctx req doc_hash existing now) := by
    intro sysA hA del recs
    cases existing with
    | some d =>
      simp only [applyOuter, Option.isSome_some, if_true, hA]
      rw [find?_updateFirst (fun x => x.doc_id == req.doc_id)
        (fun _ => upsertDocRow ctx req doc_hash (some d) now) sys.db.docs
        (fun x _ => hpred d rfl)]
      rw [hfind]
      rfl
    | none =>
      simp only [applyOuter, Option.isSome_none, Bool.false_eq_true,
        if_false, hA]
      rw [List.find?_append, hfind]
      have hp : ((upsertDocRow ctx req doc_hash none now).doc_id ==
          req.doc_id) = true := by
        simp [upsertDocRow]
      rw [@List.find?_cons_of_pos _ (fun x => x.doc_id == req.doc_id)
        (upsertDocRow ctx req doc_hash none now) [] hp]
      rfl
  unfold upsertCore at h
  simp only [reduceCtorEq, if_false] at h
  cases existing with
  | some d =>
    by_cases hdel : d.deleted_at = none
    · simp only [if_pos hdel] at h
      split at h
      all_goals try split at h
      all_goals try split at h
      all_goals
        first
          | (simp only [Prod.mk.injEq, reduceCtorEq, false_and] at h
             done)
          | (simp only [Prod.mk.injEq] at h
             rw [← h.2]
             apply happly
             try rw [save_index_docs, add_vectors_docs, load_index_docs]
             try rw [mark_dirty_docs]
             try rfl)
    · simp only [if_neg hdel] at h
      split at h
      all_goals try split at h
      all_goals try split at h
      all_goals
        first
          | (simp only [Prod.mk.injEq, reduceCtorEq, false_and] at h
             done)
          | (simp only [Prod.mk.injEq] at h
             rw [← h.2]
             apply happly
             try rw [save_index_docs, add_vectors_docs, load_index_docs]
             try rw [mark_dirty_docs]
             try rfl)
  | none =>
    split at h
    all_goals try split at h
    all_goals try split at h
    all_goals
      first
        | (simp only [Prod.mk.injEq, reduceCtorEq, false_and] at h
           done)
        | (simp only [Prod.mk.injEq] at h
           rw [← h.2]
           apply happly
           try rw [save_index_docs, add_vectors_docs, load_index_docs]
           try rw [mark_dirty_docs]
           try rfl)

theorem upsert_ok_find (ctx : UpsertCtx) (sys : Sys) (req : UpsertReq)
    (now : Nat) (r : UpsertStats) (sys1 : Sys)
    (h : upsert_document_sync ctx sys req now none = (Except.ok r, sys1)) :
    ∃ nd, sys1.db.docs.find? (fun x => x.doc_id == req.doc_id) = some nd ∧
      nd.doc_hash = ctx.doc_hash_fn req.text ∧ nd.deleted_at = none := by
  unfold upsert_document_sync at h
  cases hfind : sys.db.docs.find? (fun x => x.doc_id == req.doc_id) with
  | some d =>
    rw [hfind] at h
    dsimp only at h
    by_cases hskip : (d.doc_hash == ctx.doc_hash_fn req.text &&
        d.deleted_at == (none : Option Nat)) = true
    · rw [if_pos hskip] at h
      have hsys1 : sys1 = sys := (congrArg Prod.snd h).symm
      subst hsys1
      rw [Bool.and_eq_true, beq_iff_eq, beq_iff_eq] at hskip
      exact ⟨d, hfind, hskip.1, hskip.2⟩
    · rw [if_neg hskip] at h
      refine ⟨upsertDocRow ctx req (ctx.doc_hash_fn req.text) (some d) now,
        upsertCore_ok_find ctx sys req now (some d) (ctx.doc_hash_fn req.text)
          r sys1 hfind h, ?_, ?_⟩
      · exact upsertDocRow_doc_hash ctx req _ (some d) now
      · exact upsertDocRow_deleted_at ctx req _ (some d) now
  | none =>
    rw [hfind] at h
    dsimp only at h
    refine ⟨upsertDocRow ctx req (ctx.doc_hash_fn req.text) none now,
      upsertCore_ok_find ctx sys req now none (ctx.doc_hash_fn req.text)
        r sys1 hfind h, ?_, ?_⟩
    · exact upsertDocRow_doc_hash ctx req _ none now
    · exact upsertDocRow_deleted_at ctx req _ none now

/-- C2.  Upsert is idempotent.  First conjunct: when the document exists, is
not soft-deleted and has the same content hash, `upsert_document_sync`
performs no writes (the returned state is exactly the input state), creates
zero chunks and returns `skipped=true`.  Second conjunct: after ANY
successful upsert of a request, immediately re-running the same request
skips and leaves the stored state unchanged, so running the same upsert
twice leaves the same stored state as running it once. -/
theorem upsert_idempotent (ctx : UpsertCtx) (sys : Sys) (req : UpsertReq)
    (now now2 : Nat) :
    (∀ d, sys.db.docs.find? (fun x => x.doc_id == req.doc_id) = some d →
      d.doc_hash = ctx.doc_hash_fn req.text → d.deleted_at = none →
      upsert_document_sync ctx sys req now none =
        (Except.ok { chunks_created := 0, was_update := false,
                     skipped := true }, sys)) ∧
    (∀ r sys1,
      upsert_document_sync ctx sys req now none = (Except.ok r, sys1) →
      upsert_document_sync ctx sys1 req now2 none =
        (Except.ok { chunks_created := 0, was_update := false,
                     skipped := true }, sys1)) := by
  constructor
  · intro d hfind hhash hdel
    unfold upsert_document_sync
    rw [hfind]
    dsimp only
    have hcond : (d.doc_hash == ctx.doc_hash_fn req.text &&
        d.deleted_at == (none : Option Nat)) = true := by
      rw [Bool.and_eq_true, beq_iff_eq, beq_iff_eq]
      exact ⟨hhash, hdel⟩
    rw [if_pos hcond]
  · intro r sys1 h
    rcases upsert_ok_find ctx sys req now r sys1 h with ⟨nd, hkey, hh, hd⟩
    unfold upsert_document_sync
    rw [hkey]
    dsimp only
    have hcond : (nd.doc_hash == ctx.doc_hash_fn req.text &&
        nd.deleted_at == (none : Option Nat)) = true := by
      rw [Bool.and_eq_true, beq_iff_eq, beq_iff_eq]
      exact ⟨hh, hd⟩
    rw [if_pos hcond]

/-- Demo upsert environment: identity hash, one chunk per document,
no enrichment, one-dimensional embeddings. -/
def demoCtx : UpsertCtx :=
  { index_dir := "ix", embed_model_name := "m", embedding_version := "v",
    context_enabled := false,
    doc_hash_fn := fun s => s, chunk_hash_fn := fun s => s,
    chunker := fun t _ _ _ => [t], enricher := fun l => l,
    embed_one := fun _ => [1], dim := 1 }

/-- The empty store. -/
def emptySys : Sys := { db := { docs := [], chunks := [], metas := [] },
                        fs := [] }

/-- Demo upsert request. -/
def demoReq : UpsertReq :=
  { tenant_id := "t", ns := "n", doc_id := "d1", source := none,
    text := "hello", meta_json := none, policy_id := none,
    chunk_strategy := none, chunk_overlap := 0, enrich_context := false }

/-- Witness for C2: after upserting `demoReq` into the empty store, running
the exact same upsert again skips and leaves the stored state unchanged. -/
theorem upsert_idempotent_witness :
    upsert_document_sync demoCtx
        (upsert_document_sync demoCtx emptySys demoReq 3 none).2 demoReq 4
        none =
      (Except.ok { chunks_created := 0, was_update := false, skipped := true },
       (upsert_document_sync demoCtx emptySys demoReq 3 none).2) :=
  (upsert_idempotent demoCtx emptySys demoReq 3 4).2
    { chunks_created := 1, was_update := false, skipped := false }
    (upsert_document_sync demoCtx emptySys demoReq 3 none).2 rfl

theorem upsertCore_soft_deleted (ctx : UpsertCtx) (sys : Sys)
    (req : UpsertReq) (now t0 : Nat) (d : DocRec) (dh : String)
    (hdel : d.deleted_at = some t0)
    (hncol : ∀ c ∈ buildChunks ctx req
        (ctx.chunker req.text req.chunk_strategy req.ns req.chunk_overlap)
        (if req.enrich_context && ctx.context_enabled then
          ctx.enricher (ctx.chunker req.text req.chunk_strategy req.ns
            req.chunk_overlap)
        else ctx.chunker req.text req.chunk_strategy req.ns req.chunk_overlap)
        now,
      sys.db.chunks.find? (fun x => x.chunk_id == c.chunk_id) = none) :
    ∃ sys1,
      upsertCore ctx sys req now none (some d) dh =
        (Except.ok
          { chunks_created := (ctx.chunker req.text req.chunk_strategy req.ns req.chunk_overlap).length,
            was_update := true, skipped := false }, sys1) ∧
      sys1.db.chunks = sys.db.chunks ++ buildChunks ctx req
        (ctx.chunker req.text req.chunk_strategy req.ns req.chunk_overlap)
        (if req.enrich_context && ctx.context_enabled then
          ctx.enricher (ctx.chunker req.text req.chunk_strategy req.ns
            req.chunk_overlap)
        else ctx.chunker req.text req.chunk_strategy req.ns req.chunk_overlap)
        now := by
  have hdelne : ¬ d.deleted_at = none := by rw [hdel]; simp
  have hdec : decide (d.deleted_at = none) = false := by rw [hdel]; rfl
  unfold upsertCore
  dsimp only
  simp only [if_neg hdelne, reduceCtorEq, if_false]
  by_cases hemp : (ctx.chunker req.text req.chunk_strategy req.ns
      req.chunk_overlap).isEmpty = true
  · simp only [if_pos hemp]
    have hnil : ctx.chunker req.text req.chunk_strategy req.ns
        req.chunk_overlap = [] := List.isEmpty_iff.mp hemp
    refine ⟨applyOuter sys req (upsertDocRow ctx req dh (some d) now)
      (some d).isSome (decide (d.deleted_at = none)) [] now, ?_, ?_⟩
    · rw [hnil]
      rfl
    · unfold applyOuter
      dsimp only
      rw [hdec]
      simp only [Bool.false_eq_true, if_false, hnil]
      rfl
  · simp only [if_neg hemp]
    have hcolF : ((buildChunks ctx req
        (ctx.chunker req.text req.chunk_strategy req.ns req.chunk_overlap)
        (if req.enrich_context && ctx.context_enabled then
          ctx.enricher (ctx.chunker req.text req.chunk_strategy req.ns
            req.chunk_overlap)
        else ctx.chunker req.text req.chunk_strategy req.ns
          req.chunk_overlap) now).map (fun c => c.chunk_id)).any (fun cid =>
        ((load_index sys ctx.index_dir req.tenant_id req.ns
          ctx.embedding_version ctx.dim now).2.2.db.chunks.find?
          (fun c => c.chunk_id == cid)).isSome) = false := by
      rw [List.any_eq_false]
      intro cid hcid
      rcases List.mem_map.mp hcid with ⟨c, hc, hcc⟩
      rw [load_index_chunks, ← hcc, hncol c hc]
      simp
    rw [if_neg (by rw [hcolF]; simp)]
    refine ⟨_, rfl, ?_⟩
    unfold applyOuter
    dsimp only
    rw [hdec]
    simp only [Bool.false_eq_true, if_false]
    rw [save_index_chunks, add_vectors_chunks_unchanged, load_index_chunks]
    intro cid hcid
    rcases List.mem_map.mp hcid with ⟨c, hc, hcc⟩
    rw [load_index_chunks, ← hcc]
    exact hncol c hc

/-- C10 (amended).  An upsert whose `doc_id` matches a soft-deleted document
is never skipped, even when the `doc_hash` is identical (the skip branch also
requires `deleted_at` to be null): provided the re-created chunk ids do not
collide with the primary key of chunk rows still stored for that document,
the upsert succeeds, revives the document (its row is updated with
`deleted_at` reset to null) and re-creates its chunks; the previously stored
chunk rows are not touched. -/
theorem upsert_soft_deleted_not_skipped (ctx : UpsertCtx) (sys : Sys)
    (req : UpsertReq) (now t0 : Nat) (d : DocRec)
    (hfind : sys.db.docs.find? (fun x => x.doc_id == req.doc_id) = some d)
    (hdel : d.deleted_at = some t0)
    (hncol : ∀ c ∈ buildChunks ctx req
        (ctx.chunker req.text req.chunk_strategy req.ns req.chunk_overlap)
        (if req.enrich_context && ctx.context_enabled then
          ctx.enricher (ctx.chunker req.text req.chunk_strategy req.ns
            req.chunk_overlap)
        else ctx.chunker req.text req.chunk_strategy req.ns req.chunk_overlap)
        now,
      sys.db.chunks.find? (fun x => x.chunk_id == c.chunk_id) = none) :
    ∃ sys1,
      upsert_document_sync ctx sys req now none =
        (Except.ok
          { chunks_created := (ctx.chunker req.text req.chunk_strategy req.ns req.chunk_overlap).length,
            was_update := true, skipped := false }, sys1) ∧
      sys1.db.docs.find? (fun x => x.doc_id == req.doc_id) =
        some (upsertDocRow ctx req (ctx.doc_hash_fn req.text) (some d) now) ∧
      (upsertDocRow ctx req (ctx.doc_hash_fn req.text) (some d) now).deleted_at
        = none ∧
      sys1.db.chunks = sys.db.chunks ++ buildChunks ctx req
        (ctx.chunker req.text req.chunk_strategy req.ns req.chunk_overlap)
        (if req.enrich_context && ctx.context_enabled then
          ctx.enricher (ctx.chunker req.text req.chunk_strategy req.ns
            req.chunk_overlap)
        else ctx.chunker req.text req.chunk_strategy req.ns req.chunk_overlap)
        now := by
  have hcond : ¬ ((d.doc_hash == ctx.doc_hash_fn req.text &&
      d.deleted_at == (none : Option Nat)) = true) := by
    simp [hdel]
  obtain ⟨sys1, hrun, hchunks⟩ := upsertCore_soft_deleted ctx sys req now t0 d
    (ctx.doc_hash_fn req.text) hdel hncol
  refine ⟨sys1, ?_, ?_,
    upsertDocRow_deleted_at ctx req (ctx.doc_hash_fn req.text) (some d) now,
    hchunks⟩
  · unfold upsert_document_sync
    rw [hfind]
    dsimp only
    rw [if_neg hcond]
    exact hrun
  · exact upsertCore_ok_find ctx sys req now (some d)
      (ctx.doc_hash_fn req.text) _ sys1 hfind hrun

/-- The soft-deleted demo document (deleted at time 2, content hash equal to
the hash of `demoReq`'s text under the identity hash). -/
def c10Doc : DocRec :=
  { doc_id := "d1", tenant_id := "t", ns := "n", source := none,
    doc_hash := "hello", meta_json := none, policy_id := none,
    embedding_model_id := "m", embedding_version := "v", created_at := 0,
    updated_at := 1, deleted_at := some 2 }

/-- A soft-deleted chunk row of `c10Doc` holding the deterministic chunk id
`d1#c0000` that a re-upsert of `d1` would reuse. -/
def c10Chunk : ChunkRec :=
  { chunk_id := "d1#c0000", doc_id := "d1", tenant_id := "t", ns := "n",
    chunk_hash := "hello", text := "hello", embed_text := none,
    meta_json := none, policy_id := none, embedding_model_id := "m",
    embedding_version := "v", faiss_id := some 0, created_at := 0,
    deleted_at := some 2 }

/-- Index metadata row matching `demoCtx` whose file exists, so that
`load_index` makes no state change. -/
def c10Meta : IndexMetaRec :=
  { tenant_id := "t", ns := "n", embedding_version := "v",
    faiss_path := "ix/t_n_v.faiss", ntotal := 1, dimension := 1,
    updated_at := 0, dirty := true }

/-- Store holding the soft-deleted document together with its old chunk row:
the chunk-id collision case. -/
def c10Sys : Sys :=
  { db := { docs := [c10Doc], chunks := [c10Chunk], metas := [c10Meta] },
    fs := [("ix/t_n_v.faiss", [[1]])] }

/-- Store holding the soft-deleted document with no remaining chunk rows:
the collision-free case. -/
def c10SysB : Sys :=
  { db := { docs := [c10Doc], chunks := [], metas := [c10Meta] },
    fs := [("ix/t_n_v.faiss", [[1]])] }

/-- Counterexample for C10 as frozen: upserting `demoReq` (identical content
hash) onto the soft-deleted `c10Doc` while its old chunk row `d1#c0000` is
still stored does NOT revive the document — the insert of the re-created
chunk collides with the stored chunk row's primary key, the flush raises,
the transaction rolls back, and the stored state is unchanged: the document
keeps `deleted_at = 2` and no chunk is created. -/
theorem upsert_soft_deleted_collision_counterexample :
    upsert_document_sync demoCtx c10Sys demoReq 9 none =
      (Except.error (), c10Sys) ∧
    ((upsert_document_sync demoCtx c10Sys demoReq 9 none).2.db.docs.map
      (fun x => x.deleted_at)) = [some 2] ∧
    (upsert_document_sync demoCtx c10Sys demoReq 9 none).2.db.chunks.length
      = 1 :=
  ⟨rfl, rfl, rfl⟩

/-- Witness for C10 (amended): on the collision-free store `c10SysB` the
upsert of `demoReq` succeeds, is not skipped in spite of the identical hash,
revives the document and re-creates its single chunk. -/
theorem upsert_soft_deleted_not_skipped_witness :
    ∃ sys1,
      upsert_document_sync demoCtx c10SysB demoReq 9 none =
        (Except.ok
          { chunks_created := (demoCtx.chunker demoReq.text demoReq.chunk_strategy demoReq.ns demoReq.chunk_overlap).length,
            was_update := true, skipped := false }, sys1) ∧
      sys1.db.docs.find? (fun x => x.doc_id == demoReq.doc_id) =
        some (upsertDocRow demoCtx demoReq
          (demoCtx.doc_hash_fn demoReq.text) (some c10Doc) 9) ∧
      (upsertDocRow demoCtx demoReq (demoCtx.doc_hash_fn demoReq.text)
        (some c10Doc) 9).deleted_at = none ∧
      sys1.db.chunks = c10SysB.db.chunks ++ buildChunks demoCtx demoReq
        (demoCtx.chunker demoReq.text demoReq.chunk_strategy demoReq.ns
          demoReq.chunk_overlap)
        (if demoReq.enrich_context && demoCtx.context_enabled then
          demoCtx.enricher (demoCtx.chunker demoReq.text
            demoReq.chunk_strategy demoReq.ns demoReq.chunk_overlap)
        else demoCtx.chunker demoReq.text demoReq.chunk_strategy demoReq.ns
          demoReq.chunk_overlap) 9 :=
  upsert_soft_deleted_not_skipped demoCtx c10SysB demoReq 9 2 c10Doc rfl rfl
    (fun _ _ => rfl)

/-- Upsert environment whose chunker produces two chunks. -/
def c3Ctx : UpsertCtx := { demoCtx with chunker := fun _ _ _ _ => ["p", "q"] }

/-- C3 (evaluation at the failing input).  The upsert's writes are committed
in separate sessions, not one transaction.  When the final `session.commit()`
of `upsert_document_sync` fails on a fresh two-chunk document, the committed
state already contains the index-metadata update (`ntotal = 2`, `dirty`
cleared — committed by `save_index`'s own session) and the replaced index
file, while the document and chunk rows are rolled back; no faiss_id
assignment exists.  Even on full success, the chunk rows commit with
`faiss_id` null while `ntotal = 2` is committed: `add_vectors` updates
`faiss_id` in a fresh session that cannot see the chunk rows still pending
in the upsert's uncommitted transaction, so the faiss_id range is never
committed together with the metadata update. -/
theorem upsert_commits_are_not_atomic :
    (upsert_document_sync c3Ctx emptySys demoReq 5
      (some FailPoint.finalCommit)).1 = Except.error () ∧
    (upsert_document_sync c3Ctx emptySys demoReq 5
      (some FailPoint.finalCommit)).2.db.docs = [] ∧
    (upsert_document_sync c3Ctx emptySys demoReq 5
      (some FailPoint.finalCommit)).2.db.chunks = [] ∧
    (upsert_document_sync c3Ctx emptySys demoReq 5
      (some FailPoint.finalCommit)).2.db.metas.map
      (fun m => (m.ntotal, m.dirty)) = [(2, false)] ∧
    fsLookup (upsert_document_sync c3Ctx emptySys demoReq 5
      (some FailPoint.finalCommit)).2.fs "ix/t_n_v.faiss" =
      some [[1], [1]] ∧
    (upsert_document_sync c3Ctx emptySys demoReq 5 none).1 =
      Except.ok { chunks_created := 2, was_update := false,
                  skipped := false } ∧
    (upsert_document_sync c3Ctx emptySys demoReq 5 none).2.db.chunks.map
      (fun c => c.faiss_id) = [none, none] ∧
    (upsert_document_sync c3Ctx emptySys demoReq 5 none).2.db.metas.map
      (fun m => (m.ntotal, m.dirty)) = [(2, false)] :=
  ⟨rfl, rfl, rfl, rfl, rfl, rfl, rfl, rfl⟩

/-! ## Chunk strategy registry (src/chunking_strategies/registry.py)

Applicability scores are modelled as rationals; a strategy's `chunk` may
raise, modelled by `Except`.  The registry is the list of registered
strategies in registration order (Python dict preserves insertion order). -/

/-- The `ChunkingConfig` dataclass of src/chunking_strategies/base.py
(the opaque `extra_params` dict is not modelled; the strategies embedded
here read only `max_chars` and `overlap` from it). -/
structure ChunkCfg where
  max_chars : Nat
  overlap : Nat
  deriving DecidableEq, Repr

/-- A registered chunking strategy: its name, the `max_chars`/`overlap` of
its `default_config`, `detect_applicability` and `chunk`. -/
structure Strategy where
  name : String
  default_max_chars : Nat
  default_overlap : Nat
  detect_applicability : String → ℚ
  chunk : String → ChunkCfg → Except String (List String)

/-- Errors surfaced by `ChunkStrategyRegistry.chunk_text`. -/
inductive RegError
  | noDefaultStrategy
  | chunkFailed (msg : String)
  deriving DecidableEq, Repr

/-- First key attaining the maximal score: the model of Python's
`max(scores, key=scores.get)`, which keeps the first maximum while
iterating the dict in insertion order. -/
def maxFirst : List (String × ℚ) → Option (String × ℚ)
  | [] => none
  | p :: rest =>
    match maxFirst rest with
    | none => some p
    | some q => if q.2 > p.2 then some q else some p

/-- `ChunkStrategyRegistry.auto_detect` (src/chunking_strategies/registry.py
lines 33-77): empty text gives "default"; otherwise score every registered
strategy on the first 2,000 characters and pick the name with the highest
score, first registered winning ties; with no strategy registered return
"default". -/
def auto_detect (reg : List Strategy) (text : String) : String :=
  if text = "" then "default"
  else
    let scores := reg.map (fun s => (s.name, s.detect_applicability
      (text.take 2000)))
    match maxFirst scores with
    | none => "default"
    | some p => p.1

/-- `ChunkStrategyRegistry.get`. -/
def get_strategy (reg : List Strategy) (name : String) : Option Strategy :=
  reg.find? (fun s => s.name == name)

/-- The tail of `ChunkStrategyRegistry.chunk_text`: merge the caller config
over the strategy's defaults and chunk; when the strategy raises, fall back
to the `default` strategy (with the same merged config) unless the selected
name was already "default"; otherwise re-raise. -/
def run_chunk (reg : List Strategy) (strategy : Strategy) (sname : String)
    (text : String) (cfg_max cfg_overlap : Option Nat) :
    Except RegError (List String) :=
  let config : ChunkCfg :=
    { max_chars := cfg_max.getD strategy.default_max_chars,
      overlap := cfg_overlap.getD strategy.default_overlap }
  match strategy.chunk text config with
  | Except.ok chunks => Except.ok chunks
  | Except.error e =>
    match get_strategy reg "default" with
    | some dstrat =>
      if sname ≠ "default" then
        match dstrat.chunk text config with
        | Except.ok chunks => Except.ok chunks
        | Except.error e2 => Except.error (RegError.chunkFailed e2)
      else Except.error (RegError.chunkFailed e)
    | none => Except.error (RegError.chunkFailed e)

/-- `ChunkStrategyRegistry.chunk_text` (src/chunking_strategies/registry.py
lines 79-133): auto-detect when no name is given (Python treats the empty
string as no name), fall back to the `default` strategy when the name is
unknown, raise a configuration error when even `default` is missing, then
run the strategy (with fallback on exception). -/
def chunk_text (reg : List Strategy) (text : String)
    (strategy_name : Option String) (cfg_max cfg_overlap : Option Nat) :
    Except RegError (List String) :=
  let sname := match strategy_name with
    | none => auto_detect reg text
    | some n => if n = "" then auto_detect reg text else n
  match get_strategy reg sname with
  | some strategy => run_chunk reg strategy sname text cfg_max cfg_overlap
  | none =>
    match get_strategy reg "default" with
    | some strategy => run_chunk reg strategy sname text cfg_max cfg_overlap
    | none => Except.error RegError.noDefaultStrategy

/-! ## The default strategy (src/chunking_strategies/strategies/default.py)

Text handling is modelled on `List Char`; Python `len` counts code points,
which matches `List.length` on `String.data`. -/

/-- The six characters of Python string whitespace, stripped by
`str.strip()`. -/
def isPySpace (c : Char) : Bool :=
  c = ' ' ∨ c = '\t' ∨ c = '\n' ∨ c = '\r' ∨ c = Char.ofNat 11 ∨ c = Char.ofNat 12

/-- Python `str.strip()` on a character list. -/
def pyStripL (l : List Char) : List Char :=
  ((l.dropWhile isPySpace).reverse.dropWhile isPySpace).reverse

/-- Python `str.strip()`. -/
def pyStrip (s : String) : String := String.mk (pyStripL s.data)

/-- Python `text.split("\x7bnl\x7d\x7bnl\x7d")` (split on the exact
two-newline separator, leftmost, non-overlapping): `splitBlank cs acc`
scans `cs` with `acc` holding the current piece reversed. -/
def splitBlank : List Char → List Char → List (List Char)
  | [], acc => [acc.reverse]
  | '\n' :: '\n' :: rest, acc => acc.reverse :: splitBlank rest []
  | c :: rest, acc => splitBlank rest (c :: acc)

/-- The paragraphs of `DefaultStrategy.chunk`:
`[p.strip() for p in text.split(sep) if p.strip()]`. -/
def default_paras (text : List Char) : List (List Char) :=
  ((splitBlank text []).map pyStripL).filter (fun p => ¬ p.isEmpty)

/-- One iteration of the paragraph loop of `DefaultStrategy.chunk`
(src/chunking_strategies/strategies/default.py lines 49-65); the
accumulator is (chunks so far, current buffer `buf`). -/
def default_chunk_step (max_chars overlap : Nat)
    (acc : List (List Char) × List Char) (p : List Char) :
    List (List Char) × List Char :=
  if acc.2.length + p.length + 2 ≤ max_chars then
    (acc.1, if acc.2.isEmpty then p else acc.2 ++ '\n' :: '\n' :: p)
  else
    if acc.2.isEmpty then (acc.1, p)
    else (acc.1 ++ [acc.2],
      if 0 < overlap ∧ overlap < acc.2.length then
        (acc.2.drop (acc.2.length - overlap)) ++ '\n' :: '\n' :: p
      else p)

/-- Append the final buffer: `if buf: chunks.append(buf)`. -/
def default_finish (r : List (List Char) × List Char) : List (List Char) :=
  if r.2.isEmpty then r.1 else r.1 ++ [r.2]

/-- `DefaultStrategy.chunk` (src/chunking_strategies/strategies/default.py
lines 30-75). -/
def default_chunk (text : List Char) (cfg : ChunkCfg) : List (List Char) :=
  if (default_paras text).isEmpty then
    if (pyStripL text).isEmpty then [] else [pyStripL text]
  else
    if (default_finish ((default_paras text).foldl
          (default_chunk_step cfg.max_chars cfg.overlap) ([], []))).isEmpty
        ∧ ¬ (pyStripL text).isEmpty
    then [pyStripL text]
    else default_finish ((default_paras text).foldl
      (default_chunk_step cfg.max_chars cfg.overlap) ([], []))

/-- The default strategy as a registry entry: name "default",
`default_config = \x7bmax_chars: 800, overlap: 0\x7d`, constant
applicability 0.3, never raises. -/
def defaultStrategy : Strategy :=
  { name := "default", default_max_chars := 800, default_overlap := 0,
    detect_applicability := fun _ => mkRat 3 10,
    chunk := fun t cfg => Except.ok ((default_chunk t.data cfg).map String.mk) }

/-! ### Registry lemmas -/

theorem maxFirst_cons (p : String × ℚ) (l : List (String × ℚ)) :
    maxFirst (p :: l) = match maxFirst l with
      | none => some p
      | some q => if q.2 > p.2 then some q else some p := rfl

/-- `maxFirst` over a mapped non-empty list returns the image of the first
element attaining the maximum. -/
theorem maxFirst_map_spec (f : Strategy → String × ℚ) :
    ∀ (reg : List Strategy), reg ≠ [] →
      ∃ pre s post, reg = pre ++ s :: post ∧
        maxFirst (reg.map f) = some (f s) ∧
        (∀ t ∈ reg, (f t).2 ≤ (f s).2) ∧
        (∀ t ∈ pre, (f t).2 < (f s).2) := by
  intro reg
  induction reg with
  | nil => intro h; exact absurd rfl h
  | cons a reg ih =>
    intro _
    cases reg with
    | nil =>
      refine ⟨[], a, [], rfl, rfl, ?_, ?_⟩
      · intro t ht
        have : t = a := by simpa using ht
        simp [this]
      · intro t ht; simp at ht
    | cons b reg2 =>
      obtain ⟨pre, s, post, heq, hmax, hub, hlt⟩ :=
        ih (List.cons_ne_nil b reg2)
      by_cases hgt : (f a).2 < (f s).2
      · refine ⟨a :: pre, s, post, by rw [heq, List.cons_append], ?_, ?_, ?_⟩
        · rw [List.map_cons, maxFirst_cons, hmax]
          simp only [gt_iff_lt]
          rw [if_pos hgt]
        · intro t ht
          rcases List.mem_cons.mp ht with h1 | h1
          · exact h1 ▸ le_of_lt hgt
          · exact hub t h1
        · intro t ht
          rcases List.mem_cons.mp ht with h1 | h1
          · exact h1 ▸ hgt
          · exact hlt t h1
      · refine ⟨[], a, b :: reg2, rfl, ?_, ?_, ?_⟩
        · rw [List.map_cons, maxFirst_cons, hmax]
          simp only [gt_iff_lt]
          rw [if_neg hgt]
        · intro t ht
          rcases List.mem_cons.mp ht with h1 | h1
          · exact h1 ▸ le_refl _
          · exact le_trans (hub t h1) (not_lt.mp hgt)
        · intro t ht; simp at ht

/-- A whitespace-only scan yields whitespace-only pieces. -/
theorem splitBlank_all (cs acc : List Char) (h1 : cs.all isPySpace)
    (h2 : acc.all isPySpace) :
    (splitBlank cs acc).all (fun p => p.all isPySpace) := by
  induction cs, acc using splitBlank.induct with
  | case1 acc =>
    simp only [splitBlank, List.all_cons, List.all_nil, Bool.and_true]
    simpa using h2
  | case2 rest acc ih =>
    simp only [List.all_cons, Bool.and_eq_true] at h1
    simp only [splitBlank, List.all_cons, Bool.and_eq_true]
    refine ⟨by simpa using h2, ih h1.2.2 rfl⟩
  | case3 c rest acc _ ih =>
    simp only [List.all_cons, Bool.and_eq_true] at h1
    simp only [splitBlank]
    have hca : (c :: acc).all isPySpace := by
      simp only [List.all_cons, Bool.and_eq_true]
      exact ⟨h1.1, h2⟩
    exact ih h1.2 hca

/-- Stripping a whitespace-only piece gives the empty list. -/
theorem pyStripL_eq_nil (l : List Char) (h : l.all isPySpace) :
    pyStripL l = [] := by
  have h1 : l.dropWhile isPySpace = [] :=
    List.dropWhile_eq_nil_iff.mpr (fun x hx => by
      exact List.all_eq_true.mp h x hx)
  simp [pyStripL, h1]

/-- Whitespace-only text has no paragraphs. -/
theorem default_paras_ws (text : List Char) (h : text.all isPySpace) :
    default_paras text = [] := by
  apply List.filter_eq_nil_iff.mpr
  intro p hp
  simp only [List.mem_map] at hp
  obtain ⟨q, hq, rfl⟩ := hp
  have hall := splitBlank_all text [] h rfl
  have : q.all isPySpace := List.all_eq_true.mp hall q hq
  simp [pyStripL_eq_nil q this]

/-- `DefaultStrategy.chunk` returns no chunks on whitespace-only input. -/
theorem default_chunk_ws (text : List Char) (cfg : ChunkCfg)
    (h : text.all isPySpace) :
    default_chunk text cfg = [] := by
  rw [default_chunk, default_paras_ws text h]
  simp [pyStripL_eq_nil text h]

/-- C5: for every non-empty text with no strategy name given, the registry
scores every registered strategy on the first 2,000 characters of the input
and selects the strategy with the highest score, ties broken by
registration order (the selected strategy is preceded only by strictly
lower scores); and when no strategy is registered at all, chunk_text fails
with the configuration error ("No default strategy registered!"). -/
theorem strategy_auto_selection (reg : List Strategy) (text : String)
    (htext : ¬ text = "") (hreg : reg ≠ []) :
    (∃ pre s post, reg = pre ++ s :: post ∧ auto_detect reg text = s.name ∧
      (∀ t ∈ reg, t.detect_applicability (text.take 2000) ≤
        s.detect_applicability (text.take 2000)) ∧
      (∀ t ∈ pre, t.detect_applicability (text.take 2000) <
        s.detect_applicability (text.take 2000))) ∧
    (∀ (t2 : String) (sname : Option String) (c1 c2 : Option Nat),
      chunk_text [] t2 sname c1 c2 =
        Except.error RegError.noDefaultStrategy) := by
  constructor
  · obtain ⟨pre, s, post, heq, hmax, hub, hlt⟩ :=
      maxFirst_map_spec
        (fun t => (t.name, t.detect_applicability (text.take 2000))) reg hreg
    refine ⟨pre, s, post, heq, ?_, hub, hlt⟩
    simp only [auto_detect, if_neg htext]
    rw [hmax]
  · intro t2 sname c1 c2
    cases sname with
    | none => simp [chunk_text, get_strategy, auto_detect, maxFirst]
    | some n =>
      by_cases hn : n = "" <;>
        simp [chunk_text, get_strategy, auto_detect, maxFirst, hn]

/-- Two strategies with the identical score 1/2, registered before the
default strategy: a concrete tie. -/
def tieStratA : Strategy :=
  { name := "alpha", default_max_chars := 800, default_overlap := 0,
    detect_applicability := fun _ => mkRat 1 2,
    chunk := fun t _ => Except.ok [t] }

def tieStratB : Strategy := { tieStratA with name := "beta" }

def tieReg : List Strategy := [tieStratA, tieStratB, defaultStrategy]

theorem strategy_auto_selection_witness :
    auto_detect tieReg "Artikel 1" = "alpha" ∧
    chunk_text [] "Artikel 1" none none none =
      Except.error RegError.noDefaultStrategy := by
  have h := strategy_auto_selection tieReg "Artikel 1" (by decide)
    (by unfold tieReg; exact List.cons_ne_nil _ _)
  exact ⟨by decide, h.2 "Artikel 1" none none none⟩

/-- A strategy whose chunk function returns zero chunks for any input. -/
def zeroChunkStrat : Strategy :=
  { name := "zerochunk", default_max_chars := 800, default_overlap := 0,
    detect_applicability := fun _ => mkRat 9 10,
    chunk := fun _ _ => Except.ok [] }

/-- A strategy that, like reviews.py and menus.py, returns the single
chunk `[text.strip()]` even when the stripped text is empty. -/
def stripEchoStrat : Strategy :=
  { name := "stripecho", default_max_chars := 800, default_overlap := 0,
    detect_applicability := fun _ => mkRat 9 10,
    chunk := fun t _ => Except.ok [pyStrip t] }

def cexReg : List Strategy := [defaultStrategy, zeroChunkStrat, stripEchoStrat]

/-- C6 counterexample: a selected strategy that returns zero chunks on the
non-empty input "hello" is NOT treated as a failure: the registry returns
the empty list unchanged, although the default strategy would have produced
["hello"]; and a strategy that (like reviews.py / menus.py) echoes
`text.strip()` returns the non-empty list [""] on whitespace-only input,
so the registry does not guarantee the empty list on degenerate input
either. -/
theorem registry_error_semantics_counterexample :
    chunk_text cexReg "hello" (some "zerochunk") none none =
      Except.ok [] ∧
    chunk_text cexReg "hello" (some "default") none none =
      Except.ok ["hello"] ∧
    chunk_text cexReg " " (some "stripecho") none none = Except.ok [""] :=
  ⟨rfl, rfl, rfl⟩

/-- C6 (amended): (1) empty input is auto-routed to the default strategy,
and with the default strategy registered the registry returns the empty
chunk list; (2) likewise, chunking empty or whitespace-only input with the
default strategy returns the empty list (the guard lives in
DefaultStrategy.chunk, not in the registry); (3) a selected strategy that
returns zero chunks does NOT trigger fallback: the empty list is returned
unchanged (fallback to default happens only when the strategy raises). -/
theorem registry_error_semantics_amended :
    (∀ (reg : List Strategy) (c1 c2 : Option Nat),
      get_strategy reg "default" = some defaultStrategy →
      chunk_text reg "" none c1 c2 = Except.ok []) ∧
    (∀ (reg : List Strategy) (text : String) (c1 c2 : Option Nat),
      (text.data.all isPySpace) = true →
      get_strategy reg "default" = some defaultStrategy →
      chunk_text reg text (some "default") c1 c2 = Except.ok []) ∧
    (∀ (reg : List Strategy) (text : String) (sname : String)
       (strategy : Strategy) (c1 c2 : Option Nat),
      ¬ sname = "" →
      get_strategy reg sname = some strategy →
      (∀ cfg, strategy.chunk text cfg = Except.ok []) →
      chunk_text reg text (some sname) c1 c2 = Except.ok []) := by
  refine ⟨?_, ?_, ?_⟩
  · intro reg c1 c2 hdef
    have hauto : auto_detect reg "" = "default" := by
      simp [auto_detect]
    simp only [chunk_text]
    rw [hauto, hdef]
    rfl
  · intro reg text c1 c2 hws hdef
    simp only [chunk_text]
    rw [if_neg (show ¬ ("default" : String) = "" from by decide), hdef]
    simp only [run_chunk, defaultStrategy]
    rw [default_chunk_ws _ _ hws]
    rfl
  · intro reg text sname strategy c1 c2 hne hfind hzero
    simp only [chunk_text]
    rw [if_neg hne, hfind]
    simp only [run_chunk]
    rw [hzero]

theorem registry_error_semantics_amended_witness :
    chunk_text cexReg "" none none none = Except.ok [] ∧
    chunk_text cexReg " \t " (some "default") none none = Except.ok [] ∧
    chunk_text cexReg "hello world" (some "zerochunk") none none =
      Except.ok [] :=
  ⟨registry_error_semantics_amended.1 cexReg none none rfl,
   registry_error_semantics_amended.2.1 cexReg " \t " none none
     (by decide) rfl,
   registry_error_semantics_amended.2.2 cexReg "hello world" "zerochunk"
     zeroChunkStrat none none (by decide) rfl (fun _ => rfl)⟩

/-! ## The legal strategy (src/chunking_strategies/strategies/legal.py)

The regex scanners below embed the specific patterns of
`ARTICLE_PATTERNS` and `SUBARTICLE_PATTERNS`.  In each of these patterns
the character classes of adjacent greedy pieces are disjoint, so greedy
matching without backtracking inside a piece is faithful; the alternation
`(Artikel|Art\.|Article|ARTIKEL)` (case-insensitive) has pairwise
incompatible branches, so committing to the first branch whose literal
matches is faithful as well.  The regex class `\s` is modelled by
`isPySpace` (the documents handled are ASCII). -/

/-- Test a case-insensitive keyword at the head of `cs`. -/
def matchKw (kw : List Char) (cs : List Char) : Bool :=
  (cs.take kw.length).map Char.toLower == kw

/-- The keyword alternation `(Artikel|Art\.|Article|ARTIKEL)` under
re.IGNORECASE; returns the consumed length. -/
def matchArtKw (cs : List Char) : Option Nat :=
  if matchKw "artikel".data cs then some 7
  else if matchKw "art.".data cs then some 4
  else if matchKw "article".data cs then some 7
  else none

/-- The tail `\s*(Artikel|Art\.|Article|ARTIKEL)\s+(\d+[\.\d]*)` of
ARTICLE_PATTERNS[0] at the head of `cs`: returns (consumed length,
group(2) = the article number). -/
def matchArticle1 (cs : List Char) : Option (Nat × List Char) :=
  match matchArtKw (cs.drop (cs.takeWhile isPySpace).length) with
  | none => none
  | some klen =>
    let ws1 := (cs.takeWhile isPySpace).length
    let r2 := cs.drop (ws1 + klen)
    let ws2 := (r2.takeWhile isPySpace).length
    if ws2 = 0 then none
    else
      let r3 := r2.drop ws2
      let ds := r3.takeWhile Char.isDigit
      if ds.isEmpty then none
      else
        let dots := (r3.drop ds.length).takeWhile
          (fun c => c = '.' ∨ c.isDigit)
        some (ws1 + klen + ws2 + ds.length + dots.length, ds ++ dots)

/-- The tail `\s*§\s*(\d+[\.\d]*)` of ARTICLE_PATTERNS[1]. -/
def matchArticle2 (cs : List Char) : Option (Nat × List Char) :=
  match cs.drop (cs.takeWhile isPySpace).length with
  | c :: r2 =>
    if c = '§' then
      let ws1 := (cs.takeWhile isPySpace).length
      let ws2 := (r2.takeWhile isPySpace).length
      let r3 := r2.drop ws2
      let ds := r3.takeWhile Char.isDigit
      if ds.isEmpty then none
      else
        let dots := (r3.drop ds.length).takeWhile
          (fun c => c = '.' ∨ c.isDigit)
        some (ws1 + 1 + ws2 + ds.length + dots.length, ds ++ dots)
    else none
  | [] => none

/-- The tail `\s*(\d+)\.\s+[A-Z]` of ARTICLE_PATTERNS[2]; under
re.IGNORECASE the class [A-Z] matches any ASCII letter, and the letter is
part of the match. -/
def matchArticle3 (cs : List Char) : Option (Nat × List Char) :=
  let ws1 := (cs.takeWhile isPySpace).length
  let r1 := cs.drop ws1
  let ds := r1.takeWhile Char.isDigit
  if ds.isEmpty then none
  else
    match r1.drop ds.length with
    | '.' :: r2 =>
      let ws2 := (r2.takeWhile isPySpace).length
      if ws2 = 0 then none
      else
        match r2.drop ws2 with
        | c :: _ =>
          if c.isAlpha then some (ws1 + ds.length + 1 + ws2 + 1, ds)
          else none
        | [] => none
    | _ => none

/-- `re.finditer` (re.MULTILINE) over a pattern of the form `(?:^|\n)`
followed by the matcher `m`: a match may start at position `i` iff `i` is 0,
is preceded by a newline, or is itself a newline (the `\n` branch of the
anchor is then consumed by the leading `\s*` of `m`); matches are leftmost
and non-overlapping, scanning resumes at each match end (`skip` counts the
remaining characters of the current match).  Returns (start, end, group)
triples. -/
def scanAnchored (m : List Char → Option (Nat × List Char)) :
    List Char → Nat → Bool → Nat → List (Nat × Nat × List Char)
  | [], _, _, _ => []
  | c :: rest, i, anchor, skip =>
    match skip with
    | k + 1 => scanAnchored m rest (i + 1) (c = '\n') k
    | 0 =>
      match (if anchor ∨ c = '\n' then m (c :: rest) else none) with
      | some (len, num) =>
        (i, i + len, num) :: scanAnchored m rest (i + 1) (c = '\n') (len - 1)
      | none => scanAnchored m rest (i + 1) (c = '\n') 0

/-- First occurrence of `pat` as a sublist (Python `str.find`). -/
def subFind (pat : List Char) : List Char → Option Nat
  | [] => if pat.isEmpty then some 0 else none
  | c :: rest =>
    if pat.isPrefixOf (c :: rest) then some 0
    else (subFind pat rest).map (· + 1)

/-- Python `hay.split(pat, 1)` when `pat` occurs: (before, after). -/
def splitFirstSub (pat hay : List Char) : Option (List Char × List Char) :=
  (subFind pat hay).map (fun k => (hay.take k, hay.drop (k + pat.length)))

/-- Python `str.strip(chars)`. -/
def stripSet (set : List Char) (l : List Char) : List Char :=
  ((l.dropWhile (set.contains ·)).reverse.dropWhile (set.contains ·)).reverse

/-- An article triple of `_split_into_articles`: (article_num, title,
content). -/
structure Article where
  num : List Char
  title : List Char
  content : List Char
  deriving DecidableEq, Repr

/-- The per-match body of the loop in `_split_into_articles`
(src/chunking_strategies/strategies/legal.py lines 226-253): header is the
match line (or 100 chars when the text has no further newline), content the
stripped slice up to the next match, title the stripped part of the header
after the first occurrence of the article number. -/
def articleEntry (text : List Char) (s e : Nat) (num : List Char) :
    Article :=
  let lineEnd := match (text.drop s).findIdx? (fun c => c = '\n') with
    | some k => s + k
    | none => s + 100
  let header := pyStripL ((text.drop s).take (lineEnd - s))
  let contentStart := if lineEnd < text.length then lineEnd + 1 else s
  let content := pyStripL ((text.drop contentStart).take (e - contentStart))
  let title := match splitFirstSub num header with
    | some q => stripSet [':', '.', '-'] (pyStripL q.2)
    | none => []
  { num := num, title := title, content := content }

/-- Pair each match with the start of the next (or the text length). -/
def articleEntries (text : List Char) :
    List (Nat × Nat × List Char) → List Article
  | [] => []
  | (s, _, num) :: rest =>
    articleEntry text s
      (match rest with
        | (s2, _, _) :: _ => s2
        | [] => text.length) num :: articleEntries text rest

/-- `_split_into_articles` (src/chunking_strategies/strategies/legal.py
lines 210-259): the first ARTICLE_PATTERN with at least two matches wins. -/
def split_into_articles (text : List Char) : List Article :=
  if 2 ≤ (scanAnchored matchArticle1 text 0 true 0).length then
    articleEntries text (scanAnchored matchArticle1 text 0 true 0)
  else if 2 ≤ (scanAnchored matchArticle2 text 0 true 0).length then
    articleEntries text (scanAnchored matchArticle2 text 0 true 0)
  else if 2 ≤ (scanAnchored matchArticle3 text 0 true 0).length then
    articleEntries text (scanAnchored matchArticle3 text 0 true 0)
  else []

/-- The tail `\s*(\d+)\.\s` of SUBARTICLE_PATTERNS[0]. -/
def matchSub1 (cs : List Char) : Option (Nat × List Char) :=
  let ws1 := (cs.takeWhile isPySpace).length
  let r1 := cs.drop ws1
  let ds := r1.takeWhile Char.isDigit
  if ds.isEmpty then none
  else
    match r1.drop ds.length with
    | '.' :: c2 :: _ =>
      if isPySpace c2 then some (ws1 + ds.length + 2, ds) else none
    | _ => none

/-- The tail `\s*([a-z])\)\s` of SUBARTICLE_PATTERNS[1]. -/
def matchSub2 (cs : List Char) : Option (Nat × List Char) :=
  match cs.drop (cs.takeWhile isPySpace).length with
  | a :: b :: c2 :: _ =>
    if a.isLower ∧ b = ')' ∧ isPySpace c2 then
      some ((cs.takeWhile isPySpace).length + 3, [a])
    else none
  | _ => none

/-- The tail `\s*([a-z])\.\s` of SUBARTICLE_PATTERNS[2]. -/
def matchSub3 (cs : List Char) : Option (Nat × List Char) :=
  match cs.drop (cs.takeWhile isPySpace).length with
  | a :: b :: c2 :: _ =>
    if a.isLower ∧ b = '.' ∧ isPySpace c2 then
      some ((cs.takeWhile isPySpace).length + 3, [a])
    else none
  | _ => none

/-- The tail `\s*\(([a-z0-9]+)\)\s` of SUBARTICLE_PATTERNS[3]. -/
def matchSub4 (cs : List Char) : Option (Nat × List Char) :=
  match cs.drop (cs.takeWhile isPySpace).length with
  | '(' :: r2 =>
    let xs := r2.takeWhile (fun c => c.isLower ∨ c.isDigit)
    if xs.isEmpty then none
    else
      match r2.drop xs.length with
      | b :: c2 :: _ =>
        if b = ')' ∧ isPySpace c2 then
          some ((cs.takeWhile isPySpace).length + 1 + xs.length + 2, xs)
        else none
      | _ => none
  | _ => none

/-- The sub-pattern search of `_split_article_into_subarticles`: the first
SUBARTICLE_PATTERN with at least two matches wins (re.MULTILINE, no
IGNORECASE). -/
def subMatches (content : List Char) : List (Nat × Nat × List Char) :=
  if 2 ≤ (scanAnchored matchSub1 content 0 true 0).length then
    scanAnchored matchSub1 content 0 true 0
  else if 2 ≤ (scanAnchored matchSub2 content 0 true 0).length then
    scanAnchored matchSub2 content 0 true 0
  else if 2 ≤ (scanAnchored matchSub3 content 0 true 0).length then
    scanAnchored matchSub3 content 0 true 0
  else if 2 ≤ (scanAnchored matchSub4 content 0 true 0).length then
    scanAnchored matchSub4 content 0 true 0
  else []

/-- The (sub_num, stripped sub_content) pairs cut at match starts. -/
def subEntries (content : List Char) :
    List (Nat × Nat × List Char) → List (List Char × List Char)
  | [] => []
  | (s, _, num) :: rest =>
    (num, pyStripL ((content.drop s).take
        ((match rest with
          | (s2, _, _) :: _ => s2
          | [] => content.length) - s))) :: subEntries content rest

def subItems (content : List Char) : List (List Char × List Char) :=
  subEntries content (subMatches content)

/-- `re.split` on `([.!?]+\s+)` as a three-phase character scanner
(`txt`, `punct`, `ws` hold the current text piece, punctuation run and
whitespace run, each reversed); produces the interleaved pieces
[text, separator, text, ...] of `_split_into_sentences`. -/
def sentPieces : List Char → List Char → List Char → List Char →
    List (List Char)
  | [], txt, punct, ws =>
    if ws.isEmpty then [txt.reverse ++ punct.reverse]
    else [txt.reverse, punct.reverse ++ ws.reverse, []]
  | c :: rest, txt, punct, ws =>
    if ¬ ws.isEmpty then
      if isPySpace c then sentPieces rest txt punct (c :: ws)
      else
        txt.reverse :: (punct.reverse ++ ws.reverse) ::
          (if c = '.' ∨ c = '!' ∨ c = '?' then sentPieces rest [] [c] []
           else sentPieces rest [c] [] [])
    else if ¬ punct.isEmpty then
      if c = '.' ∨ c = '!' ∨ c = '?' then sentPieces rest txt (c :: punct) []
      else if isPySpace c then sentPieces rest txt punct [c]
      else sentPieces rest (c :: (punct ++ txt)) [] []
    else
      if c = '.' ∨ c = '!' ∨ c = '?' then sentPieces rest txt [c] []
      else sentPieces rest (c :: txt) [] []

/-- The pairing loop of `_split_into_sentences`: glue each text piece to
the separator that follows it. -/
def pairJoin : List (List Char) → List (List Char)
  | t :: s :: rest => (t ++ s) :: pairJoin rest
  | [t] => [t]
  | [] => []

/-- `_split_into_sentences` (src/chunking_strategies/strategies/legal.py
lines 327-345). -/
def split_into_sentences (content : List Char) : List (List Char) :=
  ((pairJoin (sentPieces content [] [] [])).map pyStripL).filter
    (fun s => ¬ s.isEmpty)

def joinNl (parts : List (List Char)) : List Char :=
  List.intercalate ['\n'] parts

/-- `_format_article_chunk` (src/chunking_strategies/strategies/legal.py
lines 347-362). -/
def format_article_chunk (num title content : List Char) : List Char :=
  joinNl (("[ARTIKEL ".data ++ num ++ "]".data) ::
    ((if title.isEmpty then [] else
      ["[TITEL: ".data ++ title ++ "]".data]) ++ [[], content]))

/-- `_format_subarticle_chunk` (src/chunking_strategies/strategies/legal.py
lines 364-380). -/
def format_subarticle_chunk (num title subnum content : List Char) :
    List Char :=
  joinNl (("[ARTIKEL ".data ++ num ++ ".".data ++ subnum ++ "]".data) ::
    ((if title.isEmpty then [] else
      ["[TITEL: ".data ++ title ++ "]".data]) ++ [[], content]))

/-- Current chunk plus stripped-sentence glue: a chunk body is the strip of
the concatenation of `s ++ " "` over its sentence group. -/
def joinSp (g : List (List Char)) : List Char :=
  (g.map (fun s => s ++ [' '])).flatten

/-- One step of the sentence-accumulation loop of
`_split_article_into_subarticles` (lines 304-315). -/
def sent_step (num title : List Char) (max_chars : Nat)
    (acc : List (List Char) × List Char) (s : List Char) :
    List (List Char) × List Char :=
  if acc.2.length + s.length ≤ max_chars then (acc.1, acc.2 ++ s ++ [' '])
  else if acc.2.isEmpty then (acc.1, s ++ [' '])
  else (acc.1 ++ [format_article_chunk num title (pyStripL acc.2)],
    s ++ [' '])

/-- Flush the last current chunk (lines 317-323). -/
def sent_finish (num title : List Char)
    (acc : List (List Char) × List Char) : List (List Char) :=
  if acc.2.isEmpty then acc.1
  else acc.1 ++ [format_article_chunk num title (pyStripL acc.2)]

/-- `_split_article_into_subarticles` (src/chunking_strategies/strategies/
legal.py lines 261-325). -/
def split_article_into_subarticles (num title content : List Char)
    (max_chars : Nat) : List (List Char) :=
  if (subItems content).isEmpty then
    sent_finish num title
      ((split_into_sentences content).foldl (sent_step num title max_chars)
        ([], []))
  else
    (subItems content).map
      (fun it => format_subarticle_chunk num title it.1 it.2)

/-- One step of the inner sentence loop of `_fallback_paragraph_chunking`
(lines 407-413); note the bare `sent_chunk.strip()` chunks carry no
article marker. -/
def fb_sent_step (max_chars : Nat) (acc : List (List Char) × List Char)
    (s : List Char) : List (List Char) × List Char :=
  if acc.2.length + s.length ≤ max_chars then (acc.1, acc.2 ++ s ++ [' '])
  else if acc.2.isEmpty then (acc.1, s ++ [' '])
  else (acc.1 ++ [pyStripL acc.2], s ++ [' '])

/-- One step of the paragraph loop of `_fallback_paragraph_chunking`
(lines 396-416). -/
def fb_para_step (max_chars : Nat) (acc : List (List Char) × List Char)
    (p : List Char) : List (List Char) × List Char :=
  if acc.2.length + p.length + 2 ≤ max_chars then
    (acc.1, if acc.2.isEmpty then p else acc.2 ++ '\n' :: '\n' :: p)
  else
    if max_chars < p.length then
      ((((split_into_sentences p).foldl (fb_sent_step max_chars)
          ((if acc.2.isEmpty then acc.1 else acc.1 ++ [acc.2]), []))).1,
        pyStripL (((split_into_sentences p).foldl (fb_sent_step max_chars)
          ((if acc.2.isEmpty then acc.1 else acc.1 ++ [acc.2]), []))).2)
    else ((if acc.2.isEmpty then acc.1 else acc.1 ++ [acc.2]), p)

/-- `_fallback_paragraph_chunking` (src/chunking_strategies/strategies/
legal.py lines 382-421); the paragraph list is the same comprehension as in
the default strategy. -/
def fallback_paragraph_chunking (text : List Char) (max_chars : Nat) :
    List (List Char) :=
  if ((default_paras text).foldl (fb_para_step max_chars) ([], [])).2.isEmpty
  then ((default_paras text).foldl (fb_para_step max_chars) ([], [])).1
  else ((default_paras text).foldl (fb_para_step max_chars) ([], [])).1 ++
    [((default_paras text).foldl (fb_para_step max_chars) ([], [])).2]

/-- The per-article branch of `LegalDocumentsStrategy.chunk`
(lines 185-202). -/
def legal_article_chunks (max_chars : Nat) (split_subarticles : Bool)
    (a : Article) : List (List Char) :=
  if split_subarticles ∧ max_chars < a.content.length then
    split_article_into_subarticles a.num a.title a.content max_chars
  else [format_article_chunk a.num a.title a.content]

/-- `LegalDocumentsStrategy.chunk` (src/chunking_strategies/strategies/
legal.py lines 161-208); `_add_legal_metadata` returns its chunk list
unchanged (lines 423-456), so the extract_metadata flag has no effect on
the output and is not a parameter here. -/
def legal_chunk (text : List Char) (max_chars : Nat)
    (split_subarticles : Bool) : List (List Char) :=
  if (split_into_articles text).isEmpty then
    fallback_paragraph_chunking text max_chars
  else
    if (((split_into_articles text).map
        (legal_article_chunks max_chars split_subarticles)).flatten).isEmpty
    then [pyStripL text]
    else ((split_into_articles text).map
      (legal_article_chunks max_chars split_subarticles)).flatten

/-! ### Legal-strategy lemmas -/

theorem dropWhile_head_false {α : Type} (p : α → Bool) :
    ∀ (l : List α) (c : α) (t : List α),
      l.dropWhile p = c :: t → p c = false := by
  intro l
  induction l with
  | nil => intro c t h; simp [List.dropWhile] at h
  | cons a l ih =>
    intro c t h
    rw [List.dropWhile_cons] at h
    split at h
    · exact ih c t h
    · next ha =>
      injection h with h1 _
      subst h1
      simpa using ha

/-- A list whose strip is empty is whitespace-only. -/
theorem pyStripL_all_of_eq_nil (p : List Char) (h : pyStripL p = []) :
    p.all isPySpace = true := by
  unfold pyStripL at h
  rw [List.reverse_eq_nil_iff, List.dropWhile_eq_nil_iff] at h
  rw [List.all_eq_true]
  intro x hx
  rw [← List.takeWhile_append_dropWhile (p := isPySpace) (l := p)] at hx
  rcases List.mem_append.mp hx with h1 | h1
  · exact List.mem_takeWhile_imp h1
  · exact h x (List.mem_reverse.mpr h1)

/-- A nonempty strip contains a non-whitespace character. -/
theorem pyStripL_exists_not_space (raw : List Char)
    (h : ¬ pyStripL raw = []) :
    ∃ c ∈ pyStripL raw, isPySpace c = false := by
  unfold pyStripL at h ⊢
  cases hv : (raw.dropWhile isPySpace).reverse.dropWhile isPySpace with
  | nil => rw [hv] at h; simp at h
  | cons c t =>
    refine ⟨c, ?_, dropWhile_head_false isPySpace _ c t hv⟩
    simp

/-- Flattening the raw split pieces recovers the input. -/
theorem sentPieces_flatten : ∀ (cs txt punct ws : List Char),
    (sentPieces cs txt punct ws).flatten =
      txt.reverse ++ (punct.reverse ++ (ws.reverse ++ cs)) := by
  intro cs
  induction cs with
  | nil =>
    intro txt punct ws
    simp only [sentPieces]
    split
    · next h => rw [List.isEmpty_iff] at h; subst h; simp
    · simp
  | cons c rest ih =>
    intro txt punct ws
    simp only [sentPieces]
    repeat' split
    all_goals simp_all [ih, List.append_assoc, List.isEmpty_iff]

theorem pairJoin_flatten : ∀ (l : List (List Char)),
    (pairJoin l).flatten = l.flatten := by
  intro l
  induction l using pairJoin.induct with
  | case1 t s rest ih => simp [pairJoin, ih, List.append_assoc]
  | case2 t => simp [pairJoin]
  | case3 => simp [pairJoin]

/-- Content with a non-whitespace character yields at least one
sentence. -/
theorem split_into_sentences_ne_nil (content : List Char)
    (hc : ∃ c ∈ content, isPySpace c = false) :
    ¬ split_into_sentences content = [] := by
  intro hnil
  unfold split_into_sentences at hnil
  rw [List.filter_eq_nil_iff] at hnil
  obtain ⟨c, hcmem, hcws⟩ := hc
  have hfl : (pairJoin (sentPieces content [] [] [])).flatten = content := by
    rw [pairJoin_flatten, sentPieces_flatten]; simp
  rw [← hfl] at hcmem
  obtain ⟨p, hp, hcp⟩ := List.mem_flatten.mp hcmem
  have h2 := hnil (pyStripL p) (List.mem_map_of_mem _ hp)
  have h2p : pyStripL p = [] := by simpa [List.isEmpty_iff] using h2
  have hall := pyStripL_all_of_eq_nil p h2p
  rw [List.all_eq_true] at hall
  rw [hall c hcp] at hcws
  simp at hcws

theorem joinNl_cons : ∀ (ps : List (List Char)) (p : List Char),
    ∃ t, joinNl (p :: ps) = p ++ t := by
  intro ps p
  cases ps with
  | nil => exact ⟨[], rfl⟩
  | cons q qs => exact ⟨'\n' :: joinNl (q :: qs), rfl⟩

/-- Every formatted article chunk begins with the marker. -/
theorem format_article_chunk_marker (num title content : List Char) :
    "[ARTIKEL ".data.isPrefixOf
      (format_article_chunk num title content) = true := by
  obtain ⟨t, ht⟩ := joinNl_cons
    ((if title.isEmpty then [] else
      ["[TITEL: ".data ++ title ++ "]".data]) ++ [[], content])
    ("[ARTIKEL ".data ++ num ++ "]".data)
  rw [format_article_chunk, ht, List.isPrefixOf_iff_prefix,
    List.append_assoc, List.append_assoc]
  exact List.prefix_append _ _

/-- Every formatted sub-article chunk begins with the marker. -/
theorem format_subarticle_chunk_marker (num title subnum content :
    List Char) :
    "[ARTIKEL ".data.isPrefixOf
      (format_subarticle_chunk num title subnum content) = true := by
  obtain ⟨t, ht⟩ := joinNl_cons
    ((if title.isEmpty then [] else
      ["[TITEL: ".data ++ title ++ "]".data]) ++ [[], content])
    ("[ARTIKEL ".data ++ num ++ ".".data ++ subnum ++ "]".data)
  rw [format_subarticle_chunk, ht, List.isPrefixOf_iff_prefix]
  simp only [List.append_assoc]
  exact List.prefix_append _ _

theorem joinSp_append (g : List (List Char)) (s : List Char) :
    joinSp (g ++ [s]) = joinSp g ++ s ++ [' '] := by
  simp [joinSp, List.append_assoc]

theorem joinSp_cons_isEmpty (s : List Char) (gs : List (List Char)) :
    (joinSp (s :: gs)).isEmpty = false := by
  simp [joinSp, List.isEmpty_iff]

/-- The sentence-accumulation loop, generalized over processed groups
(`gdone`) and the group of the current buffer (`gcur`): the final chunks
are the formatted groups, the groups partition the sentence list in
order. -/
theorem sent_fold_groups (num title : List Char) (max_chars : Nat) :
    ∀ (ss : List (List Char)) (gdone : List (List (List Char)))
      (gcur : List (List Char)),
      (∀ g ∈ gdone, g ≠ []) →
      ∃ groups : List (List (List Char)), (∀ g ∈ groups, g ≠ []) ∧
        groups.flatten = gdone.flatten ++ gcur ++ ss ∧
        sent_finish num title
            (ss.foldl (sent_step num title max_chars)
              (gdone.map (fun g =>
                format_article_chunk num title (pyStripL (joinSp g))),
               joinSp gcur)) =
          groups.map (fun g =>
            format_article_chunk num title (pyStripL (joinSp g))) := by
  intro ss
  induction ss with
  | nil =>
    intro gdone gcur hd
    cases gcur with
    | nil =>
      refine ⟨gdone, hd, by simp, ?_⟩
      simp [sent_finish, joinSp]
    | cons s gs =>
      refine ⟨gdone ++ [s :: gs], ?_, by simp, ?_⟩
      · intro g hg
        rcases List.mem_append.mp hg with h1 | h1
        · exact hd g h1
        · rw [List.mem_singleton.mp h1]; exact List.cons_ne_nil _ _
      · rw [List.foldl_nil, sent_finish, joinSp_cons_isEmpty]
        simp
  | cons s ss ih =>
    intro gdone gcur hd
    rw [List.foldl_cons]
    by_cases hfit : (joinSp gcur).length + s.length ≤ max_chars
    · have hstep : sent_step num title max_chars
          (gdone.map (fun g =>
            format_article_chunk num title (pyStripL (joinSp g))),
           joinSp gcur) s =
          (gdone.map (fun g =>
            format_article_chunk num title (pyStripL (joinSp g))),
           joinSp (gcur ++ [s])) := by
        rw [sent_step, if_pos hfit, joinSp_append]
      rw [hstep]
      obtain ⟨groups, h1, h2, h3⟩ := ih gdone (gcur ++ [s]) hd
      exact ⟨groups, h1, by simpa [List.append_assoc] using h2, h3⟩
    · cases gcur with
      | nil =>
        have hstep : sent_step num title max_chars
            (gdone.map (fun g =>
              format_article_chunk num title (pyStripL (joinSp g))),
             joinSp []) s =
            (gdone.map (fun g =>
              format_article_chunk num title (pyStripL (joinSp g))),
             joinSp [s]) := by
          rw [sent_step, if_neg hfit]
          simp [joinSp]
        rw [hstep]
        obtain ⟨groups, h1, h2, h3⟩ := ih gdone [s] hd
        exact ⟨groups, h1, by simpa [List.append_assoc] using h2, h3⟩
      | cons c gs =>
        have hstep : sent_step num title max_chars
            (gdone.map (fun g =>
              format_article_chunk num title (pyStripL (joinSp g))),
             joinSp (c :: gs)) s =
            ((gdone ++ [c :: gs]).map (fun g =>
              format_article_chunk num title (pyStripL (joinSp g))),
             joinSp [s]) := by
          rw [sent_step, if_neg hfit, joinSp_cons_isEmpty]
          simp [joinSp]
        rw [hstep]
        have hd2 : ∀ g ∈ gdone ++ [c :: gs], g ≠ [] := by
          intro g hg
          rcases List.mem_append.mp hg with h1 | h1
          · exact hd g h1
          · rw [List.mem_singleton.mp h1]; exact List.cons_ne_nil _ _
        obtain ⟨groups, h1, h2, h3⟩ := ih (gdone ++ [c :: gs]) [s] hd2
        exact ⟨groups, h1, by simpa [List.append_assoc] using h2, h3⟩

/-- The sentence path of `_split_article_into_subarticles`: the chunks are
formatted consecutive groups of the sentence list, each sentence used
exactly once in order. -/
theorem sent_chunks_spec (num title : List Char) (max_chars : Nat)
    (ss : List (List Char)) :
    ∃ groups : List (List (List Char)),
      (∀ g ∈ groups, g ≠ []) ∧ groups.flatten = ss ∧
      sent_finish num title
          (ss.foldl (sent_step num title max_chars) ([], [])) =
        groups.map (fun g =>
          format_article_chunk num title (pyStripL (joinSp g))) := by
  obtain ⟨groups, h1, h2, h3⟩ :=
    sent_fold_groups num title max_chars ss [] [] (by simp)
  refine ⟨groups, h1, by simpa using h2, ?_⟩
  simpa [joinSp] using h3

theorem flatten_map_singleton {α β : Type} (f : α → β) :
    ∀ (l : List α), (l.map (fun a => [f a])).flatten = l.map f := by
  intro l
  induction l with
  | nil => rfl
  | cons a l ih => simp [ih]

theorem articleEntry_content (text : List Char) (s e : Nat)
    (num : List Char) :
    ∃ raw, (articleEntry text s e num).content = pyStripL raw :=
  ⟨_, rfl⟩

theorem articleEntries_content (text : List Char) :
    ∀ ms, ∀ a ∈ articleEntries text ms,
      ∃ raw, a.content = pyStripL raw := by
  intro ms
  induction ms with
  | nil => intro a ha; simp [articleEntries] at ha
  | cons m rest ih =>
    obtain ⟨s, j, num⟩ := m
    intro a ha
    simp only [articleEntries] at ha
    rcases List.mem_cons.mp ha with h1 | h1
    · rw [h1]; exact articleEntry_content text s _ num
    · exact ih a h1

theorem split_into_articles_content (text : List Char) :
    ∀ a ∈ split_into_articles text, ∃ raw, a.content = pyStripL raw := by
  intro a ha
  unfold split_into_articles at ha
  split at ha
  · exact articleEntries_content text _ a ha
  · split at ha
    · exact articleEntries_content text _ a ha
    · split at ha
      · exact articleEntries_content text _ a ha
      · simp at ha

/-- Every chunk emitted for one article carries the [ARTIKEL marker. -/
theorem legal_article_chunks_marker (max_chars : Nat) (a : Article) :
    ∀ ch ∈ legal_article_chunks max_chars true a,
      "[ARTIKEL ".data.isPrefixOf ch = true := by
  intro ch hch
  unfold legal_article_chunks at hch
  split at hch
  · unfold split_article_into_subarticles at hch
    split at hch
    · obtain ⟨groups, _, _, heq⟩ :=
        sent_chunks_spec a.num a.title max_chars
          (split_into_sentences a.content)
      rw [heq] at hch
      obtain ⟨g, _, hg⟩ := List.mem_map.mp hch
      rw [← hg]
      exact format_article_chunk_marker _ _ _
    · obtain ⟨it, _, hit⟩ := List.mem_map.mp hch
      rw [← hit]
      exact format_subarticle_chunk_marker _ _ _ _
  · rw [List.mem_singleton.mp hch]
    exact format_article_chunk_marker _ _ _

/-- An article whose (stripped) content is oversize emits at least one
chunk. -/
theorem legal_article_chunks_ne_nil (max_chars : Nat) (a : Article)
    (hraw : ∃ raw, a.content = pyStripL raw) :
    ¬ legal_article_chunks max_chars true a = [] := by
  unfold legal_article_chunks
  split
  · next hcond =>
    unfold split_article_into_subarticles
    split
    · obtain ⟨groups, _, h2, heq⟩ :=
        sent_chunks_spec a.num a.title max_chars
          (split_into_sentences a.content)
      rw [heq]
      have hne : ¬ split_into_sentences a.content = [] := by
        obtain ⟨raw, hrw⟩ := hraw
        refine split_into_sentences_ne_nil a.content ?_
        rw [hrw]
        refine pyStripL_exists_not_space raw ?_
        intro hnil
        rw [hrw, hnil] at hcond
        simp at hcond
      intro hmap
      rw [List.map_eq_nil_iff] at hmap
      rw [hmap] at h2
      exact hne (by rw [← h2]; rfl)
    · next hitems =>
      intro hmap
      rw [List.map_eq_nil_iff] at hmap
      rw [hmap] at hitems
      simp at hitems
  · exact List.cons_ne_nil _ _

/-- C8: for every text in which an article pattern finds at least two
article headers (so `_split_into_articles` is non-empty), the legal
strategy (with its default split_subarticles=True) emits a non-empty chunk
list in which every chunk begins with the "[ARTIKEL " marker; when every
article's content fits max_chars the output is exactly one formatted chunk
per article; and an oversize article without sub-item structure is split
into chunks formed from consecutive groups of its sentence list — each
sentence used exactly once, in order, so chunks share no sentence and
overlap is zero. -/
theorem legal_chunking_no_overlap (text : List Char) (max_chars : Nat)
    (harts : (split_into_articles text).isEmpty = false) :
    (¬ legal_chunk text max_chars true = [] ∧
     ∀ ch ∈ legal_chunk text max_chars true,
       "[ARTIKEL ".data.isPrefixOf ch = true) ∧
    ((∀ a ∈ split_into_articles text, a.content.length ≤ max_chars) →
      legal_chunk text max_chars true =
        (split_into_articles text).map
          (fun a => format_article_chunk a.num a.title a.content)) ∧
    (∀ a ∈ split_into_articles text,
      max_chars < a.content.length →
      subItems a.content = [] →
      ∃ groups : List (List (List Char)),
        (∀ g ∈ groups, g ≠ []) ∧
        groups.flatten = split_into_sentences a.content ∧
        split_article_into_subarticles a.num a.title a.content max_chars =
          groups.map (fun g =>
            format_article_chunk a.num a.title (pyStripL (joinSp g)))) := by
  have hflat : ¬ ((split_into_articles text).map
      (legal_article_chunks max_chars true)).flatten = [] := by
    intro happ
    cases harts2 : split_into_articles text with
    | nil => rw [harts2] at harts; simp at harts
    | cons a rest =>
      rw [harts2] at happ
      simp only [List.map_cons, List.flatten_cons] at happ
      rcases List.append_eq_nil.mp happ with ⟨h1, _⟩
      have ha : a ∈ split_into_articles text := by
        rw [harts2]; exact List.mem_cons_self a rest
      exact legal_article_chunks_ne_nil max_chars a
        (split_into_articles_content text a ha) h1
  have hlc : legal_chunk text max_chars true =
      ((split_into_articles text).map
        (legal_article_chunks max_chars true)).flatten := by
    unfold legal_chunk
    rw [harts]
    simp only [Bool.false_eq_true, if_false]
    cases hb : (((split_into_articles text).map
        (legal_article_chunks max_chars true)).flatten).isEmpty with
    | true => exact absurd (List.isEmpty_iff.mp hb) hflat
    | false => simp
  refine ⟨⟨?_, ?_⟩, ?_, ?_⟩
  · rw [hlc]; exact hflat
  · intro ch hch
    rw [hlc] at hch
    obtain ⟨l, hl, hchl⟩ := List.mem_flatten.mp hch
    obtain ⟨a, ha, hfa⟩ := List.mem_map.mp hl
    rw [← hfa] at hchl
    exact legal_article_chunks_marker max_chars a ch hchl
  · intro hfit
    rw [hlc]
    have hmap : (split_into_articles text).map
        (legal_article_chunks max_chars true) =
        (split_into_articles text).map
          (fun a => [format_article_chunk a.num a.title a.content]) := by
      apply List.map_congr_left
      intro a ha
      unfold legal_article_chunks
      rw [if_neg (fun hcon =>
        absurd hcon.2 (not_lt.mpr (hfit a ha)))]
    rw [hmap, flatten_map_singleton]
  · intro a _ _ hsub
    obtain ⟨groups, h1, h2, h3⟩ :=
      sent_chunks_spec a.num a.title max_chars
        (split_into_sentences a.content)
    refine ⟨groups, h1, h2, ?_⟩
    unfold split_article_into_subarticles
    rw [if_pos (by rw [hsub]; rfl)]
    exact h3

/-- Three ordinary articles, each introduced by `Artikel n - ...`. -/
def demoLegalText : List Char :=
  ("Artikel 1 - Begrippen\nDe eerste zin. De tweede zin.\n" ++
   "Artikel 2 - Toepassing\nDeze regeling geldt hier.\n" ++
   "Artikel 3 - Slot\nKlaar.").data

set_option maxRecDepth 4000 in
theorem legal_chunking_no_overlap_witness :
    (split_into_articles demoLegalText).length = 3 ∧
    (legal_chunk demoLegalText 2000 true).length = 3 ∧
    (∀ ch ∈ legal_chunk demoLegalText 2000 true,
      "[ARTIKEL ".data.isPrefixOf ch = true) := by
  have h := legal_chunking_no_overlap demoLegalText 2000 (by decide)
  exact ⟨by decide, by decide, h.1.2⟩

end RagAi3
